import Mathlib

/-!
# Verification development for the alertmagnet pipeline

Shallow embedding, in Lean 4, of the core functions of the alertmagnet
repository (query orchestrator, result compactor, correlation engine,
duration analyzer), together with theorems that settle the frozen claims
about them.

Modelling conventions:
* Python integers and integer-valued float timestamps are modelled as `Int`;
  timestamps that the code divides by two (`__split_request_by_half`) are
  modelled as `ℚ` so the division is exact, as it is for IEEE doubles on the
  inputs of interest.
* Python `//` (floor division) is `Int.fdiv`.
* Python dictionaries carrying metric label maps are modelled either as an
  abstract type `M` with decidable equality or as association lists.
* Fallible code (KeyError, IndexError, ZeroDivisionError) returns `Option`.
-/

set_option linter.unusedVariables false

namespace Alertmagnet

/-! ## utilities/data_filter.py -/

/-- Embedding of `remove_state_from_timestamp_value` on well-typed input
`[[ts, state], …]`: keep only the timestamp of each sample. -/
def remove_state_from_timestamp_value (data : List (Int × String)) : List Int :=
  data.map Prod.fst

/-- Body loop of `create_time_ranges` (`for value in data[:-1]:` …), with the
running state `(start, prev)` already initialised from the first element.
Returns the emitted ranges and the final `(start, prev)` state. -/
def ctrBody (step : Int) : Int → Int → List Int → List (Int × Int) × Int × Int
  | start, prev, [] => ([], start, prev)
  | start, prev, v :: rest =>
    if v = prev then ctrBody step start prev rest
    else if v ≠ prev + step then
      let r := ctrBody step v v rest
      ((start, prev - start) :: r.1, r.2)
    else ctrBody step start v rest

/-- Handling of the final element `value = data[-1]` of `create_time_ranges`,
applied to the loop result `r = (out, start, prev)`. -/
def ctrFinish (step : Int) (r : List (Int × Int) × Int × Int) (lastV : Int) :
    List (Int × Int) :=
  if ¬ lastV = r.2.2 + step then r.1 ++ [(r.2.1, r.2.2 - r.2.1), (lastV, 0)]
  else r.1 ++ [(r.2.1, lastV - r.2.1)]

/-- Embedding of `create_time_ranges(data, step)` from
`utilities/data_filter.py`: the loop runs over `data[:-1]` and the last
element is handled separately, exactly as in the source. -/
def create_time_ranges (data : List Int) (step : Int) : List (Int × Int) :=
  match data.dropLast, data.getLast? with
  | _, none => []
  | [], some lastV => [(lastV, 0)]
  | b :: body, some lastV => ctrFinish step (ctrBody step b b body) lastV

/-- Spec-side definition (from the spec's words, for the refinement claim C1):
fold a maximal run starting at `start` whose last seen element is `prev`. -/
def runFoldGo (S : Int) : Int → Int → List Int → List (Int × Int)
  | start, prev, [] => [(start, prev - start)]
  | start, prev, v :: rest =>
    if v = prev + S then runFoldGo S start v rest
    else (start, prev - start) :: runFoldGo S v v rest

/-- Spec-side definition: fold each maximal run of elements spaced exactly `S`
into `(t_start, t_end − t_start)`; an isolated element yields `(t, 0)`. -/
def runFold (S : Int) : List Int → List (Int × Int)
  | [] => []
  | t :: rest => runFoldGo S t t rest

/-- Remove elements equal to the running previous kept value `p`
(adjacent-duplicate collapse relative to a known previous element). -/
def dedupFrom : Int → List Int → List Int
  | _, [] => []
  | p, v :: rest => if v = p then dedupFrom p rest else v :: dedupFrom v rest

/-- Collapse adjacent duplicate timestamps, keeping the first of each run. -/
def dedupAdj : List Int → List Int
  | [] => []
  | x :: rest => x :: dedupFrom x rest

/-- `true` iff the list has fewer than two elements or its final two elements
differ. -/
def lastTwoDistinct : List Int → Bool
  | [] => true
  | [_] => true
  | [x, y] => decide (x ≠ y)
  | _ :: y :: z :: r => lastTwoDistinct (y :: z :: r)

/-- Last element of a list, with a default for the empty list. -/
def lastD : Int → List Int → Int
  | d, [] => d
  | _, v :: rest => lastD v rest

theorem lastD_eq_of_eq (p q : Int) (xs : List Int) (h : p = q) :
    lastD p xs = lastD q xs := by rw [h]

theorem ctrFinish_cons (S : Int) (x : Int × Int) (a : List (Int × Int))
    (st : Int × Int) (lastV : Int) :
    ctrFinish S (x :: a, st) lastV = x :: ctrFinish S (a, st) lastV := by
  unfold ctrFinish
  split_ifs <;> simp

/-- The loop of `create_time_ranges` followed by the final-element handling
computes the run-fold of the adjacent-deduplicated stream, provided the final
element differs from the last loop value. -/
theorem ctrBody_runFold (S : Int) (xs : List Int) :
    ∀ start prev lastV : Int, lastV ≠ lastD prev xs →
      ctrFinish S (ctrBody S start prev xs) lastV
        = runFoldGo S start prev (dedupFrom prev (xs ++ [lastV])) := by
  induction xs with
  | nil =>
    intro start prev lastV h
    simp only [lastD] at h
    simp only [ctrBody, List.nil_append, dedupFrom, if_neg h]
    by_cases hS' : lastV = prev + S
    · simp [ctrFinish, runFoldGo, hS']
    · simp [ctrFinish, runFoldGo, hS']
  | cons v rest ih =>
    intro start prev lastV h
    simp only [lastD] at h
    by_cases hvp : v = prev
    · rw [show ctrBody S start prev (v :: rest) = ctrBody S start prev rest by
        simp [ctrBody, hvp]]
      rw [show dedupFrom prev ((v :: rest) ++ [lastV])
            = dedupFrom prev (rest ++ [lastV]) by
        simp [dedupFrom, hvp]]
      exact ih start prev lastV (by rw [← hvp]; exact h)
    · by_cases hvs : v = prev + S
      · rw [show ctrBody S start prev (v :: rest) = ctrBody S start v rest by
          simp only [ctrBody]
          rw [if_neg hvp, if_neg (not_not_intro hvs)]]
        rw [show dedupFrom prev ((v :: rest) ++ [lastV])
              = v :: dedupFrom v (rest ++ [lastV]) by
          simp [dedupFrom, hvp]]
        rw [show runFoldGo S start prev (v :: dedupFrom v (rest ++ [lastV]))
              = runFoldGo S start v (dedupFrom v (rest ++ [lastV])) by
          simp [runFoldGo, hvs]]
        exact ih start v lastV h
      · rw [show ctrBody S start prev (v :: rest)
              = ((start, prev - start) :: (ctrBody S v v rest).1,
                 (ctrBody S v v rest).2) by
          simp only [ctrBody]
          rw [if_neg hvp, if_pos hvs]]
        rw [show dedupFrom prev ((v :: rest) ++ [lastV])
              = v :: dedupFrom v (rest ++ [lastV]) by
          simp [dedupFrom, hvp]]
        rw [show runFoldGo S start prev (v :: dedupFrom v (rest ++ [lastV]))
              = (start, prev - start)
                  :: runFoldGo S v v (dedupFrom v (rest ++ [lastV])) by
          simp [runFoldGo, hvs]]
        rw [show ((start, prev - start) :: (ctrBody S v v rest).1,
                 (ctrBody S v v rest).2)
              = ((start, prev - start) :: (ctrBody S v v rest).1,
                 (ctrBody S v v rest).2.1, (ctrBody S v v rest).2.2) by rfl]
        rw [ctrFinish_cons]
        exact congrArg _ (ih v v lastV h)

theorem lastTwoDistinct_append (xs : List Int) :
    ∀ p lastV : Int, lastTwoDistinct (p :: xs ++ [lastV]) = true →
      lastV ≠ lastD p xs := by
  induction xs with
  | nil =>
    intro p lastV h
    simp only [List.nil_append, lastTwoDistinct, decide_eq_true_eq] at h
    simp only [lastD]
    exact fun hc => h hc.symm
  | cons y ys ih =>
    intro p lastV h
    have h' : lastTwoDistinct (y :: ys ++ [lastV]) = true := by
      cases ys with
      | nil => simpa [lastTwoDistinct] using h
      | cons z zs => simpa [lastTwoDistinct] using h
    simpa [lastD] using ih y lastV h'

theorem create_time_ranges_eq_runFold (S : Int) (data : List Int)
    (hld : lastTwoDistinct data = true) :
    create_time_ranges data S = runFold S (dedupAdj data) := by
  match data with
  | [] => rfl
  | [x] => simp [create_time_ranges, runFold, dedupAdj, dedupFrom, runFoldGo]
  | b :: c :: rest =>
    have hne : (c :: rest) ≠ [] := by simp
    have hsplit : c :: rest = (c :: rest).dropLast ++ [(c :: rest).getLast hne] :=
      (List.dropLast_append_getLast hne).symm
    have hd : (b :: c :: rest).dropLast = b :: (c :: rest).dropLast :=
      List.dropLast_cons₂
    have hg : (b :: c :: rest).getLast? = some ((c :: rest).getLast hne) := by
      rw [List.getLast?_cons_cons]
      exact List.getLast?_eq_getLast _ hne
    have hlhs : create_time_ranges (b :: c :: rest) S
        = ctrFinish S (ctrBody S b b ((c :: rest).dropLast))
            ((c :: rest).getLast hne) := by
      rw [create_time_ranges, hd, hg]
    rw [hlhs]
    have hrhs : runFold S (dedupAdj (b :: c :: rest))
        = runFoldGo S b b
            (dedupFrom b ((c :: rest).dropLast ++ [(c :: rest).getLast hne])) := by
      rw [show dedupAdj (b :: c :: rest) = b :: dedupFrom b (c :: rest) from rfl]
      rw [show runFold S (b :: dedupFrom b (c :: rest))
            = runFoldGo S b b (dedupFrom b (c :: rest)) from rfl]
      rw [← hsplit]
    rw [hrhs]
    apply ctrBody_runFold
    apply lastTwoDistinct_append
    rw [hsplit] at hld
    exact hld

/-- C1: for an ascending sorted list of timestamps and positive grid step `S`,
`create_time_ranges` folds each maximal run spaced exactly `S` into
`(t_start, t_end − t_start)`, emits `(t, 0)` for an isolated timestamp, and
collapses duplicate adjacent timestamps with no effect on the output —
amended: the duplicate-collapse guarantee requires that the final two
elements of the input differ (a duplicated final timestamp emits an extra
`(t, 0)` entry, see the counterexample); `[]` yields `[]`, and the two
concrete examples of the claim evaluate as stated. -/
theorem C1_time_range_encoder :
    (∀ (S : Int) (data : List Int), 0 < S → data.Chain' (· ≤ ·) →
        lastTwoDistinct data = true →
        create_time_ranges data S = runFold S (dedupAdj data))
    ∧ create_time_ranges [] 5 = []
    ∧ create_time_ranges [0,5,10,15,35,50,55,60,65,67,68,69,73,78,83,88,90] 5
        = [(0,15),(35,0),(50,15),(67,0),(68,0),(69,0),(73,15),(90,0)]
    ∧ create_time_ranges [77] 5 = [(77,0)] := by
  refine ⟨fun S data _ _ hld => create_time_ranges_eq_runFold S data hld,
    rfl, by decide, by decide⟩

/-- Witness for C1: the general statement applied at `S = 5`,
`data = [0, 5, 10]`, with all hypotheses discharged on that input. -/
theorem C1_time_range_encoder_witness :
    (0 : Int) < 5 ∧ ([0, 5, 10] : List Int).Chain' (· ≤ ·)
    ∧ lastTwoDistinct [0, 5, 10] = true
    ∧ create_time_ranges [0, 5, 10] 5 = runFold 5 (dedupAdj [0, 5, 10]) :=
  ⟨by decide, by norm_num [List.chain'_cons], by decide,
    C1_time_range_encoder.1 5 [0, 5, 10] (by decide)
      (by norm_num [List.chain'_cons]) (by decide)⟩

/-- Counterexample for C1 as stated: a duplicate of the final timestamp does
affect the output — `[20, 20]` (ascending sorted, duplicate adjacent pair)
encodes to `[(20,0),(20,0)]`, not to the encoding `[(20,0)]` of `[20]`. -/
theorem C1_counterexample :
    create_time_ranges [20, 20] 5 ≠ create_time_ranges [20] 5
    ∧ create_time_ranges [20, 20] 5 = [(20, 0), (20, 0)]
    ∧ create_time_ranges [20] 5 = [(20, 0)] := by
  refine ⟨by decide, by decide, by decide⟩

/-! ## On-disk chunk files (written by the orchestrator, read by the cleaner)

A persisted `data{k}.json` file holds a status string and a list of series,
each carrying a metric label map (abstract type `M`) and, after the executor
stripped the state component, a list of timestamps. -/

/-- One series of a persisted chunk file: metric label map and values. -/
structure CleanSeries (M : Type) (V : Type) where
  metric : M
  values : List V
  deriving DecidableEq, Repr

/-- One persisted chunk file. -/
structure CleanFile (M : Type) (V : Type) where
  status : String
  result : List (CleanSeries M V)
  deriving DecidableEq, Repr

/-! ## utilities/data_cleaner.py -/

/-- Embedding of `DataCleaner.__assert_index_to_metrics(results)`, acting on
the accumulated `self.data["data"]["result"]` list `data`. The source builds
`a`/`trans` in loops that `break` after their first iteration, so only
`results[0]` is ever considered: if some accumulated series has the same
metric, `results[0].values` is appended to the series at index 0 (the stored
index is the index into `a`, which is always 0), otherwise `results[0]` is
appended as a new series. -/
def assertIndexToMetrics {M V : Type} [DecidableEq M]
    (data results : List (CleanSeries M V)) : List (CleanSeries M V) :=
  match results with
  | [] => data
  | r0 :: _ =>
    if data.any (fun e => e.metric = r0.metric) then
      match data with
      | [] => []
      | d0 :: rest => { d0 with values := d0.values ++ r0.values } :: rest
    else data ++ [r0]

/-- Merging stage of `DataCleaner.clear_query_results`: the first file
initialises the series list; each subsequent file is skipped when its status
is `"error"` and otherwise folded in through `__assert_index_to_metrics`.
`none` models the `IndexError` on an empty file list. -/
def clearQueryResultsMerge {M V : Type} [DecidableEq M]
    (files : List (CleanFile M V)) : Option (List (CleanSeries M V)) :=
  match files with
  | [] => none
  | f0 :: rest =>
    some (rest.foldl
      (fun acc f => if f.status = "error" then acc
                    else assertIndexToMetrics acc f.result) f0.result)

/-- C2: the merge loop of the compactor. The claim states that every entry of
every subsequent non-error file is merged (matched entries appended to the
matching series, unmatched entries appended as new series, none dropped).
The code violates this: only the first entry of each subsequent file is
processed, and a matched entry's values are appended to the series at index
0 rather than to the matching series. On the failing input below, the entry
with metric "C" is dropped, and in the second run the values of the "B"
entry are appended to the "A" series. -/
theorem C2_cleaner_merge_drops_entries :
    clearQueryResultsMerge
      [⟨"success", [⟨"A", [1]⟩]⟩,
       ⟨"success", [⟨"B", [2]⟩, ⟨"C", [3]⟩]⟩]
      = some [(⟨"A", [1]⟩ : CleanSeries String Int), ⟨"B", [2]⟩]
    ∧ (∀ e ∈ (clearQueryResultsMerge
        [(⟨"success", [⟨"A", [1]⟩]⟩ : CleanFile String Int),
         ⟨"success", [⟨"B", [2]⟩, ⟨"C", [3]⟩]⟩]).getD [],
        e.metric ≠ "C")
    ∧ clearQueryResultsMerge
        [⟨"success", [⟨"A", [1]⟩, ⟨"B", [2]⟩]⟩,
         ⟨"success", [⟨"B", [9]⟩]⟩]
      = some [(⟨"A", [1, 9]⟩ : CleanSeries String Int), ⟨"B", [2]⟩] := by
  refine ⟨by decide, by decide, by decide⟩

/-! ## querying/response_messages.py -/

/-- One raw series of a parsed `query_range` response: metric label map and
samples `[timestamp, state]`. -/
structure RawSeries (M : Type) where
  metric : M
  values : List (Int × String)
  deriving DecidableEq, Repr

/-- A parsed JSON response body. `errorType`/`error` are optional keys;
a missing key models a `KeyError` on access. -/
structure RawData (M : Type) where
  status : String
  errorType : Option String
  error : Option String
  result : List (RawSeries M)
  deriving DecidableEq, Repr

/-- `response_messages.MESSAGE_EXCEEDED_MAXIMUM`. -/
def MESSAGE_EXCEEDED_MAXIMUM (M : Type) : RawData M :=
  ⟨"error", some "bad_data",
   some "exceeded maximum resolution of 11,000 points per timeseries. Try decreasing the query resolution (?step=XX)",
   []⟩

/-- `response_messages.EMPTY_RESULTS` (note: its status is `"success"`). -/
def EMPTY_RESULTS (M : Type) : RawData M := ⟨"success", none, none, []⟩

/-! ## Query.__execute_request / Query.__parse_request_result -/

/-- Outcome of one HTTP attempt inside `Query.__execute_request`. `ok none`
models a response whose `.json()` raises a decode error. -/
inductive AttemptOutcome (M : Type) where
  | connectTimeout
  | readTimeout
  | sslError
  | connectionError
  | chunkedEncodingError
  | ok (response : Option (RawData M))
  deriving DecidableEq

/-- The three exception kinds that `__execute_request` retries. -/
def retriable {M : Type} (o : AttemptOutcome M) : Prop :=
  o = .connectTimeout ∨ o = .sslError ∨ o = .connectionError

/-- The retry loop `for _ in range(3)` of `Query.__execute_request`, reading
attempt `i` from the stream `att`; returns the response handed to
`__parse_request_result` (`none` = JSON decode failure, the two sentinel
returns are `ResponseDummy` bodies that parse to themselves). -/
def executeRequestAux {M : Type} (att : Nat → AttemptOutcome M) :
    Nat → Nat → Option (RawData M)
  | 0, _ => some (EMPTY_RESULTS M)
  | fuel + 1, i =>
    match att i with
    | .connectTimeout => executeRequestAux att fuel (i + 1)
    | .sslError => executeRequestAux att fuel (i + 1)
    | .connectionError => executeRequestAux att fuel (i + 1)
    | .readTimeout => some (MESSAGE_EXCEEDED_MAXIMUM M)
    | .chunkedEncodingError => some (MESSAGE_EXCEEDED_MAXIMUM M)
    | .ok r => r

/-- `Query.__execute_request`: up to 3 total attempts. -/
def executeRequest {M : Type} (att : Nat → AttemptOutcome M) :
    Option (RawData M) :=
  executeRequestAux att 3 0

/-- `Query.__parse_request_result`. -/
def parseRequestResult {M : Type} (response : Option (RawData M)) : RawData M :=
  match response with
  | none => EMPTY_RESULTS M
  | some d =>
    if d.status = "error" then
      match d.errorType with
      | none => EMPTY_RESULTS M
      | some et => if et ≠ "bad_data" then EMPTY_RESULTS M else d
    else d

/-- `Query.execute`: request then parse. -/
def queryExecute {M : Type} (att : Nat → AttemptOutcome M) : RawData M :=
  parseRequestResult (executeRequest att)

theorem parse_message (M : Type) :
    parseRequestResult (some (MESSAGE_EXCEEDED_MAXIMUM M))
      = MESSAGE_EXCEEDED_MAXIMUM M := rfl

theorem parse_empty (M : Type) :
    parseRequestResult (some (EMPTY_RESULTS M)) = EMPTY_RESULTS M := rfl

theorem executeRequestAux_retriable {M : Type} (att : Nat → AttemptOutcome M)
    (i fuel : Nat) (h : retriable (att i)) :
    executeRequestAux att (fuel + 1) i = executeRequestAux att fuel (i + 1) := by
  rcases h with h | h | h <;> simp [executeRequestAux, h]

theorem executeRequestAux_stop {M : Type} (att : Nat → AttemptOutcome M)
    (i fuel : Nat) (h : att i = .readTimeout ∨ att i = .chunkedEncodingError) :
    executeRequestAux att (fuel + 1) i = some (MESSAGE_EXCEEDED_MAXIMUM M) := by
  rcases h with h | h <;> simp [executeRequestAux, h]

theorem executeRequestAux_ok {M : Type} (att : Nat → AttemptOutcome M)
    (i fuel : Nat) (r : Option (RawData M)) (h : att i = .ok r) :
    executeRequestAux att (fuel + 1) i = r := by
  simp [executeRequestAux, h]

/-- C4: retry/classification behaviour of the executor. A connect timeout,
SSL failure or generic connection error is retried, up to 3 total attempts;
whenever attempt `i < 3` is reached (all earlier attempts retriable): a read
timeout or chunked-encoding truncation stops immediately with the canonical
`EXCEEDED_MAX` marker; a JSON decode failure yields the canonical `EMPTY`
marker; a parsed response with `status = "error"` and an `errorType`
different from `"bad_data"` yields `EMPTY`; and when all 3 attempts are
exhausted by retriable errors the result is `EMPTY`. -/
theorem C4_executor_retry_classification {M : Type}
    (att : Nat → AttemptOutcome M) :
    (∀ i, i < 3 → (∀ j, j < i → retriable (att j)) →
      (((att i = .readTimeout ∨ att i = .chunkedEncodingError) →
          queryExecute att = MESSAGE_EXCEEDED_MAXIMUM M)
        ∧ (att i = .ok none → queryExecute att = EMPTY_RESULTS M)
        ∧ (∀ d : RawData M, att i = .ok (some d) → d.status = "error" →
            ∀ et, d.errorType = some et → et ≠ "bad_data" →
              queryExecute att = EMPTY_RESULTS M)))
    ∧ ((∀ j, j < 3 → retriable (att j)) → queryExecute att = EMPTY_RESULTS M) := by
  have step : ∀ i fuel, retriable (att i) →
      executeRequestAux att (fuel + 1) i = executeRequestAux att fuel (i + 1) :=
    fun i fuel h => executeRequestAux_retriable att i fuel h
  constructor
  · intro i hi hprev
    have hreach : executeRequest att = executeRequestAux att (3 - i) i := by
      interval_cases i
      · rfl
      · rw [executeRequest, step 0 2 (hprev 0 (by omega))]
      · rw [executeRequest, step 0 2 (hprev 0 (by omega)),
          step 1 1 (hprev 1 (by omega))]
    have hfuel : 3 - i = (3 - i - 1) + 1 := by omega
    refine ⟨fun h => ?_, fun h => ?_, fun d h hstatus et het hne => ?_⟩
    · rw [queryExecute, hreach, hfuel, executeRequestAux_stop att i _ h,
        parse_message]
    · rw [queryExecute, hreach, hfuel, executeRequestAux_ok att i _ none h]
      rfl
    · rw [queryExecute, hreach, hfuel, executeRequestAux_ok att i _ (some d) h]
      simp [parseRequestResult, hstatus, het, hne]
  · intro h
    rw [queryExecute, executeRequest, step 0 2 (h 0 (by omega)),
      step 1 1 (h 1 (by omega)), step 2 0 (h 2 (by omega))]
    rfl

/-- Witness for C4: a stream of connect timeouts exhausts all 3 attempts and
yields the `EMPTY` marker. -/
theorem C4_executor_retry_classification_witness :
    (∀ j, j < 3 →
        retriable ((fun _ => AttemptOutcome.connectTimeout (M := Unit)) j))
    ∧ queryExecute (fun _ => AttemptOutcome.connectTimeout (M := Unit))
        = EMPTY_RESULTS Unit :=
  ⟨fun j _ => Or.inl rfl,
    (C4_executor_retry_classification
        (fun _ => AttemptOutcome.connectTimeout (M := Unit))).2
      (fun j _ => Or.inl rfl)⟩

/-! ## QueryExecutor (query_management.py) -/

/-- The state-stripping the orchestrator performs before persisting a
successful result (`remove_state_from_timestamp_value` on every series). -/
def stripFile {M : Type} (d : RawData M) : CleanFile M Int :=
  ⟨d.status,
   d.result.map (fun s => ⟨s.metric, remove_state_from_timestamp_value s.values⟩)⟩

/-- Embedding of `QueryExecutor.execute_query` / `__handle_query_result` /
`__split_request_by_half`, with `exec` modelling `Query.execute` as a
function of the chunk's `(global_start, global_end)`. Returns the list of
written files `(chunk index, interval, stripped body)` and the final value of
`self.chunk`. On `EXCEEDED_MAX` the code sets `query1.global_start = mid` and
`query2.global_end = mid` and executes `query1` first, incrementing
`self.chunk` after each of the two executions. `fuel` bounds the recursion
depth (Python recurses unboundedly). -/
def executeQueryAux {M : Type} [DecidableEq M] (exec : ℚ × ℚ → RawData M) :
    Nat → ℚ × ℚ → Nat → List (Nat × (ℚ × ℚ) × CleanFile M Int) × Nat
  | 0, _, chunk => ([], chunk)
  | fuel + 1, (s, e), chunk =>
    let r := exec (s, e)
    if r.status = "success" then ([(chunk, (s, e), stripFile r)], chunk)
    else if r = MESSAGE_EXCEEDED_MAXIMUM M then
      let mid := e - (e - s) / 2
      let r1 := executeQueryAux exec fuel (mid, e) chunk
      let r2 := executeQueryAux exec fuel (s, mid) (r1.2 + 1)
      (r1.1 ++ r2.1, r2.2 + 1)
    else ([], chunk)

/-- Invariant of the orchestrator: the chunk counter never decreases, every
written file has an index between the initial and final counter values and a
`"success"` status, and the write indices are strictly increasing in issue
order. -/
theorem executeQueryAux_invariant {M : Type} [DecidableEq M]
    (exec : ℚ × ℚ → RawData M) :
    ∀ (fuel : Nat) (q : ℚ × ℚ) (c : Nat),
      c ≤ (executeQueryAux exec fuel q c).2
      ∧ (∀ w ∈ (executeQueryAux exec fuel q c).1,
          (c ≤ w.1 ∧ w.1 ≤ (executeQueryAux exec fuel q c).2)
          ∧ w.2.2.status = "success")
      ∧ List.Pairwise (fun a b => a.1 < b.1) (executeQueryAux exec fuel q c).1 := by
  intro fuel
  induction fuel with
  | zero => intro q c; simp [executeQueryAux]
  | succ fuel ih =>
    rintro ⟨s, e⟩ c
    simp only [executeQueryAux]
    split_ifs with h1 h2
    · refine ⟨le_refl c, ?_, by simp⟩
      intro w hw
      simp only [List.mem_singleton] at hw
      subst hw
      exact ⟨⟨le_refl c, le_refl c⟩, h1⟩
    · obtain ⟨ihc1, ihw1, ihp1⟩ := ih (e - (e - s) / 2, e) c
      obtain ⟨ihc2, ihw2, ihp2⟩ :=
        ih (s, e - (e - s) / 2) ((executeQueryAux exec fuel (e - (e - s) / 2, e) c).2 + 1)
      refine ⟨by omega, ?_, ?_⟩
      · intro w hw
        rcases List.mem_append.mp hw with hw1 | hw2
        · obtain ⟨⟨hb1, hb2⟩, hst⟩ := ihw1 w hw1
          exact ⟨⟨hb1, by omega⟩, hst⟩
        · obtain ⟨⟨hb1, hb2⟩, hst⟩ := ihw2 w hw2
          exact ⟨⟨by omega, by omega⟩, hst⟩
      · rw [List.pairwise_append]
        refine ⟨ihp1, ihp2, ?_⟩
        intro a ha b hb
        obtain ⟨⟨ha1, ha2⟩, _⟩ := ihw1 a ha
        obtain ⟨⟨hb1, hb2⟩, _⟩ := ihw2 b hb
        omega
    · simp [executeQueryAux]

/-- An executor stub that answers `EXCEEDED_MAX` exactly for the chunk
`(s, e)` and a successful empty body for every other chunk. -/
def execOnce {M : Type} [DecidableEq M] (s e : ℚ) : ℚ × ℚ → RawData M :=
  fun q => if q = (s, e) then MESSAGE_EXCEEDED_MAXIMUM M else EMPTY_RESULTS M

/-- One `EXCEEDED_MAX` answer for the chunk `(s, e)` splits it at
`mid = (s+e)/2` and issues `[mid, e]` first, then `[s, mid]`, writing
`data0.json` and `data1.json` in that order. -/
theorem executeQueryAux_split_once {M : Type} [DecidableEq M] (s e : ℚ)
    (hse : s < e) :
    executeQueryAux (execOnce (M := M) s e) 2 (s, e) 0
      = ([(0, ((s + e) / 2, e), ⟨"success", []⟩),
          (1, (s, (s + e) / 2), ⟨"success", []⟩)], 2) := by
  have hmid : e - (e - s) / 2 = (s + e) / 2 := by ring
  have hx : (((s + e) / 2, e) : ℚ × ℚ) ≠ (s, e) := by
    intro hc
    have h1 : (s + e) / 2 = s := congrArg Prod.fst hc
    linarith
  have hy : ((s, (s + e) / 2) : ℚ × ℚ) ≠ (s, e) := by
    intro hc
    have h1 : (s + e) / 2 = e := congrArg Prod.snd hc
    linarith
  have e0 : execOnce (M := M) s e (s, e) = MESSAGE_EXCEEDED_MAXIMUM M :=
    if_pos rfl
  have e1 : execOnce (M := M) s e ((s + e) / 2, e) = EMPTY_RESULTS M :=
    if_neg hx
  have e2 : execOnce (M := M) s e (s, (s + e) / 2) = EMPTY_RESULTS M :=
    if_neg hy
  show executeQueryAux (execOnce (M := M) s e) (1 + 1) (s, e) 0 = _
  simp only [executeQueryAux, hmid, e0, e1, e2]
  norm_num [MESSAGE_EXCEEDED_MAXIMUM, EMPTY_RESULTS, stripFile]
  decide

/-- C3 (amended): whenever the executor's result for a chunk `[start, end]`
is the `EXCEEDED_MAX` marker, the orchestrator computes `mid = (start+end)/2`
and issues the two sub-chunks `[mid, end]` and `[start, mid]` — in that
order, not `[start, mid]` first — recursing on any further `EXCEEDED_MAX`;
the chunk's local file counter is incremented after each issued sub-chunk,
so successful sub-chunks are written with strictly increasing (not
necessarily consecutive) file indices in issue order. -/
theorem C3_adaptive_halving {M : Type} [DecidableEq M] :
    (∀ (exec : ℚ × ℚ → RawData M) (fuel : Nat) (q : ℚ × ℚ) (c : Nat),
        c ≤ (executeQueryAux exec fuel q c).2
        ∧ (∀ w ∈ (executeQueryAux exec fuel q c).1,
            c ≤ w.1 ∧ w.1 ≤ (executeQueryAux exec fuel q c).2)
        ∧ List.Pairwise (fun a b => a.1 < b.1) (executeQueryAux exec fuel q c).1)
    ∧ (∀ s e : ℚ, s < e →
        executeQueryAux (execOnce (M := M) s e) 2 (s, e) 0
          = ([(0, ((s + e) / 2, e), ⟨"success", []⟩),
              (1, (s, (s + e) / 2), ⟨"success", []⟩)], 2)) := by
  constructor
  · intro exec fuel q c
    obtain ⟨h1, h2, h3⟩ := executeQueryAux_invariant exec fuel q c
    exact ⟨h1, fun w hw => (h2 w hw).1, h3⟩
  · exact fun s e hse => executeQueryAux_split_once s e hse

/-- Witness for C3: the amended statement applied to the chunk `(0, 4)` with
an executor that exceeds exactly once. -/
theorem C3_adaptive_halving_witness :
    ((0 : ℚ) < 4)
    ∧ executeQueryAux (execOnce (M := Unit) 0 4) 2 (0, 4) 0
        = ([(0, ((0 + 4) / 2, 4), ⟨"success", []⟩),
            (1, (0, (0 + 4) / 2), ⟨"success", []⟩)], 2) :=
  ⟨by norm_num, (C3_adaptive_halving (M := Unit)).2 0 4 (by norm_num)⟩

/-- Counterexample for C3 as stated: for the chunk `(0, 4)` the first issued
and persisted sub-chunk is `[mid, end] = (2, 4)`, not `[start, mid] = (0, 2)`. -/
theorem C3_counterexample :
    ((executeQueryAux (execOnce (M := Unit) 0 4) 2 (0, 4) 0).1.map
        (fun w => (w.1, w.2.1)))
      = [(0, (2, 4)), (1, (0, 2))]
    ∧ (((2 : ℚ), (4 : ℚ)) ≠ ((0 : ℚ), (2 : ℚ))) := by
  have h := executeQueryAux_split_once (M := Unit) 0 4 (by norm_num)
  rw [h]
  norm_num

/-- C5 (amended): the `EXCEEDED_MAX` sentinel is never persisted — every
data file written by the orchestrator has status `"success"` and differs
from the stripped `EXCEEDED_MAX` body (whose status is `"error"`). The
`EMPTY` sentinel, by contrast, has status `"success"`, so a chunk whose
result is `EMPTY` does get a data file (with an empty result list, see the
counterexample); merging such a file into the compactor state adds no
series, so no sentinel series data reaches `finalData.json`. -/
theorem C5_sentinels_never_success_data {M V : Type} [DecidableEq M] :
    (∀ (exec : ℚ × ℚ → RawData M) (fuel : Nat) (q : ℚ × ℚ) (c : Nat),
        ∀ w ∈ (executeQueryAux exec fuel q c).1,
          w.2.2.status = "success"
          ∧ w.2.2 ≠ stripFile (MESSAGE_EXCEEDED_MAXIMUM M))
    ∧ (MESSAGE_EXCEEDED_MAXIMUM M).status = "error"
    ∧ (∀ data : List (CleanSeries M V), assertIndexToMetrics data [] = data) := by
  refine ⟨?_, rfl, fun data => rfl⟩
  intro exec fuel q c w hw
  have h := ((executeQueryAux_invariant exec fuel q c).2.1 w hw).2
  refine ⟨h, ?_⟩
  intro hc
  rw [hc] at h
  simp [stripFile, MESSAGE_EXCEEDED_MAXIMUM] at h

/-- Witness for C5: the write produced by an always-`EMPTY` executor is a
`"success"` file distinct from the stripped `EXCEEDED_MAX` body. -/
theorem C5_sentinels_never_success_data_witness :
    ((0, ((0 : ℚ), (1 : ℚ)), (⟨"success", []⟩ : CleanFile Unit Int))
        ∈ (executeQueryAux (M := Unit) (fun _ => EMPTY_RESULTS Unit) 1 (0, 1) 0).1)
    ∧ ((⟨"success", []⟩ : CleanFile Unit Int).status = "success"
        ∧ (⟨"success", []⟩ : CleanFile Unit Int)
            ≠ stripFile (MESSAGE_EXCEEDED_MAXIMUM Unit)) :=
  ⟨by decide,
    (C5_sentinels_never_success_data (M := Unit) (V := Int)).1
      (fun _ => EMPTY_RESULTS Unit) 1 (0, 1) 0
      (0, ((0 : ℚ), (1 : ℚ)), ⟨"success", []⟩) (by decide)⟩

/-- Counterexample for C5 as stated: a chunk whose result is the `EMPTY`
sentinel does get a data file — the orchestrator writes `data0.json` with
the empty-result success body, the chunk slot is not left without a file. -/
theorem C5_counterexample :
    (executeQueryAux (M := Unit) (fun _ => EMPTY_RESULTS Unit) 1 (0, 1) 0).1
      = [(0, ((0 : ℚ), (1 : ℚ)), ⟨"success", []⟩)]
    ∧ (executeQueryAux (M := Unit) (fun _ => EMPTY_RESULTS Unit) 1 (0, 1) 0).1
        ≠ [] := by
  refine ⟨by decide, by decide⟩

/-! ## QuerySplitter.split_by_treshold (query_management.py)

The query's `global_start`/`global_end` are decimal timestamp strings. The
strictly-inside test converts them with `float(...)`, modelled by `pyFloat`
(a decimal-string parser, exact on plain decimal numerals); the degenerate
branches compare the strings themselves with Python's lexicographic `>`,
modelled by `pyStrGt`. -/

/-- The fixed query parameter dictionary of `Query.__parse_request_data`. -/
structure Params where
  query : String
  dedup : String
  partialResp : String
  start : String
  endv : String
  step : String
  maxSourceResolution : String
  engine : String
  analyze : String
  deriving DecidableEq, Repr

/-- Applying one `kwargs["params"]` override: only the keys of the source's
`valid_query_parameters` tuple are accepted (`start`/`end` are not). -/
def applyParam (p : Params) (kv : String × String) : Params :=
  if kv.1 = "query" then { p with query := kv.2 }
  else if kv.1 = "dedup" then { p with dedup := kv.2 }
  else if kv.1 = "partial_response" then { p with partialResp := kv.2 }
  else if kv.1 = "step" then { p with step := kv.2 }
  else if kv.1 = "max_source_resolution" then { p with maxSourceResolution := kv.2 }
  else if kv.1 = "engine" then { p with engine := kv.2 }
  else if kv.1 = "analyze" then { p with analyze := kv.2 }
  else p

/-- `Query.__parse_request_data`: defaults, then the `kwargs["params"]`
overrides in order. -/
def buildParams (start endv : String) (overrides : List (String × String)) :
    Params :=
  overrides.foldl applyParam
    ⟨"ALERTS", "true", "false", start, endv, "60", "0s", "thanos", "false"⟩

/-- A `Query` object after `initialize()`: its request parameters are built
from its timestamps and its `kwargs["params"]` association list. -/
structure QueryM where
  base_url : String
  global_start : String
  global_end : String
  kwargsParams : List (String × String)
  params : Params
  deriving DecidableEq, Repr

/-- `Query(base_url=…, start=…, end=…, kwargs=…)`. -/
def mkQuery (base_url start endv : String) (kw : List (String × String)) :
    QueryM :=
  ⟨base_url, start, endv, kw, buildParams start endv kw⟩

/-- `dict.update` on an association list: replace the value of an existing
key in place, else append the pair. -/
def updateAssoc (l : List (String × String)) (k v : String) :
    List (String × String) :=
  if l.any (fun p => p.1 = k) then
    l.map (fun p => if p.1 = k then (k, v) else p)
  else l ++ [(k, v)]

/-- Value of a digit string. -/
def digitsToNat (cs : List Char) : Nat :=
  cs.foldl (fun a c => a * 10 + (c.toNat - 48)) 0

/-- Python `float(s)` on a plain decimal numeral (`"123"`, `"123.5"`),
modelled exactly over `ℚ`. -/
def pyFloat (s : String) : ℚ :=
  match s.data.splitOn '.' with
  | [i] => (digitsToNat i : ℚ)
  | [i, f] => (digitsToNat i : ℚ) + (digitsToNat f : ℚ) / (10 ^ f.length)
  | _ => 0

/-- Python's lexicographic `<` on strings (by code point). -/
def pyCharsLt : List Char → List Char → Bool
  | [], [] => false
  | [], _ :: _ => true
  | _ :: _, [] => false
  | a :: as, b :: bs => if a = b then pyCharsLt as bs else decide (a < b)

/-- Python's `a > b` on strings. -/
def pyStrGt (a b : String) : Bool := pyCharsLt b.data a.data

/-- Embedding of `QuerySplitter.split_by_treshold`. `thresholdSet` models
`not threshold` being false; `split` is the string
`str((now − timedelta(days=threshold)).timestamp())`. The strictly-inside
test compares `float(...)` values; the degenerate branches compare the raw
strings (`split > end`, `start > split`); when neither string comparison
fires the function logs and returns the empty list. -/
def split_by_treshold (q : QueryM) (thresholdSet : Bool) (split : String) :
    List (Option QueryM) :=
  if ¬ thresholdSet then [some q, none]
  else
    if pyFloat q.global_end > pyFloat split
        ∧ pyFloat split > pyFloat q.global_start then
      [some (mkQuery q.base_url split q.global_end q.kwargsParams),
       some (mkQuery q.base_url q.global_start split
         (updateAssoc (updateAssoc q.kwargsParams "step" "3600")
            "max_source_resolution" "1h"))]
    else if pyStrGt split q.global_end then [none, some q]
    else if pyStrGt q.global_start split then [some q, none]
    else []

theorem foldl_applyParam_start (l : List (String × String)) :
    ∀ p : Params, (l.foldl applyParam p).start = p.start := by
  induction l with
  | nil => intro p; rfl
  | cons kv rest ih =>
    intro p
    rw [List.foldl_cons, ih]
    unfold applyParam
    split_ifs <;> rfl

theorem foldl_applyParam_endv (l : List (String × String)) :
    ∀ p : Params, (l.foldl applyParam p).endv = p.endv := by
  induction l with
  | nil => intro p; rfl
  | cons kv rest ih =>
    intro p
    rw [List.foldl_cons, ih]
    unfold applyParam
    split_ifs <;> rfl

/-- `applyParam` writes the field read by `fieldOf` exactly on key `k`. -/
def WritesOn (fieldOf : Params → String) (k : String) : Prop :=
  ∀ (p : Params) (kv : String × String),
    fieldOf (applyParam p kv) = if kv.1 = k then kv.2 else fieldOf p

theorem writesOn_step : WritesOn Params.step "step" := by
  intro p kv
  unfold applyParam
  split_ifs with h1 h2 h3 h4 <;> simp_all

theorem writesOn_msr : WritesOn Params.maxSourceResolution
    "max_source_resolution" := by
  intro p kv
  unfold applyParam
  split_ifs with h1 h2 h3 h4 h5 <;> simp_all

theorem foldl_field_of_no_key (fieldOf : Params → String) (k : String)
    (hw : WritesOn fieldOf k) (l : List (String × String)) :
    ∀ p : Params, (∀ e ∈ l, e.1 ≠ k) →
      fieldOf (l.foldl applyParam p) = fieldOf p := by
  induction l with
  | nil => intro p _; rfl
  | cons kv rest ih =>
    intro p h
    rw [List.foldl_cons, ih _ (fun e he => h e (List.mem_cons_of_mem kv he)),
      hw p kv, if_neg (h kv (List.mem_cons_self kv rest))]

theorem foldl_field_of_key (fieldOf : Params → String) (k : String)
    (hw : WritesOn fieldOf k) (v : String) (l : List (String × String)) :
    ∀ p : Params, (∀ e ∈ l, e.1 = k → e.2 = v) → (∃ e ∈ l, e.1 = k) →
      fieldOf (l.foldl applyParam p) = v := by
  induction l with
  | nil => rintro p _ ⟨e, he, _⟩; exact absurd he (List.not_mem_nil e)
  | cons kv rest ih =>
    intro p hall hex
    rw [List.foldl_cons]
    by_cases hrest : ∃ e ∈ rest, e.1 = k
    · exact ih _ (fun e he => hall e (List.mem_cons_of_mem kv he)) hrest
    · have hk : kv.1 = k := by
        rcases hex with ⟨e, he, hek⟩
        rcases List.mem_cons.mp he with rfl | hmem
        · exact hek
        · exact absurd ⟨e, hmem, hek⟩ hrest
      have hnone : ∀ e ∈ rest, e.1 ≠ k := by
        intro e he hek
        exact hrest ⟨e, he, hek⟩
      rw [foldl_field_of_no_key fieldOf k hw rest _ hnone, hw p kv, if_pos hk]
      exact hall kv (List.mem_cons_self kv rest) hk

theorem updateAssoc_all (l : List (String × String)) (k v : String) :
    ∀ e ∈ updateAssoc l k v, e.1 = k → e.2 = v := by
  intro e he hek
  unfold updateAssoc at he
  split_ifs at he with hany
  · rcases List.mem_map.mp he with ⟨x, hx, hfx⟩
    by_cases hxk : x.1 = k
    · rw [if_pos hxk] at hfx; rw [← hfx]
    · rw [if_neg hxk] at hfx; rw [← hfx] at hek; exact absurd hek hxk
  · rcases List.mem_append.mp he with hmem | hmem
    · exact absurd (List.any_eq_true.mpr ⟨e, hmem, decide_eq_true hek⟩) hany
    · simp only [List.mem_singleton] at hmem
      rw [hmem]

theorem updateAssoc_exists (l : List (String × String)) (k v : String) :
    ∃ e ∈ updateAssoc l k v, e.1 = k := by
  unfold updateAssoc
  split_ifs with hany
  · rcases List.any_eq_true.mp hany with ⟨x, hx, hxk⟩
    refine ⟨(k, v), List.mem_map.mpr ⟨x, hx, ?_⟩, rfl⟩
    rw [if_pos (of_decide_eq_true hxk)]
  · exact ⟨(k, v), List.mem_append.mpr (Or.inr (List.mem_singleton.mpr rfl)), rfl⟩

theorem updateAssoc_mem_other (l : List (String × String)) (k v : String)
    (e : String × String) (he : e ∈ updateAssoc l k v) (hek : e.1 ≠ k) :
    e ∈ l := by
  unfold updateAssoc at he
  split_ifs at he with hany
  · rcases List.mem_map.mp he with ⟨x, hx, hfx⟩
    by_cases hxk : x.1 = k
    · rw [if_pos hxk] at hfx
      rw [← hfx] at hek
      exact absurd rfl hek
    · rw [if_neg hxk] at hfx
      rw [← hfx]; exact hx
  · rcases List.mem_append.mp he with hmem | hmem
    · exact hmem
    · simp only [List.mem_singleton] at hmem
      rw [hmem] at hek
      exact absurd rfl hek

theorem updateAssoc_exists_other (l : List (String × String)) (k v k' : String)
    (hkk : k' ≠ k) (hex : ∃ e ∈ l, e.1 = k') :
    ∃ e ∈ updateAssoc l k v, e.1 = k' := by
  rcases hex with ⟨e, he, hek⟩
  unfold updateAssoc
  split_ifs with hany
  · refine ⟨e, List.mem_map.mpr ⟨e, he, ?_⟩, hek⟩
    rw [if_neg (by rw [hek]; exact hkk)]
  · exact ⟨e, List.mem_append.mpr (Or.inl he), hek⟩

theorem foldl_field_congr (fieldOf : Params → String) (k : String)
    (hw : WritesOn fieldOf k) (l : List (String × String)) :
    ∀ p p' : Params, fieldOf p = fieldOf p' →
      fieldOf (l.foldl applyParam p) = fieldOf (l.foldl applyParam p') := by
  induction l with
  | nil => intro p p' h; exact h
  | cons kv rest ih =>
    intro p p' h
    rw [List.foldl_cons, List.foldl_cons]
    apply ih
    rw [hw p kv, hw p' kv]
    split_ifs <;> simp [h]

/-- C6 (amended): threshold splitting. When `T` is unset the result is
`(spec, none)`. When `now−T` lies strictly inside `(global_start,
global_end)` (compared as floats) exactly two specs are returned: the first
covers `[now−T, global_end]` with the original `kwargs`, the second covers
`[global_start, now−T]` with `step` forced to `"3600"` and
`max_source_resolution` to `"1h"` on a deep copy of the `kwargs` params, and
forcing them leaves the first spec's `step`/`max_source_resolution` at the
values built from the original `kwargs`. In the degenerate cases the code
compares the *decimal strings lexicographically*, not the numeric values:
`(none, spec)` is returned when `str(now−T) > global_end` as strings,
`(spec, none)` when `global_start > str(now−T)` as strings, and an empty
list when neither string comparison fires. -/
theorem C6_threshold_split (q : QueryM) (split : String) :
    (split_by_treshold q false split = [some q, none])
    ∧ (pyFloat q.global_end > pyFloat split →
        pyFloat split > pyFloat q.global_start →
        split_by_treshold q true split
          = [some (mkQuery q.base_url split q.global_end q.kwargsParams),
             some (mkQuery q.base_url q.global_start split
               (updateAssoc (updateAssoc q.kwargsParams "step" "3600")
                  "max_source_resolution" "1h"))]
        ∧ (mkQuery q.base_url q.global_start split
             (updateAssoc (updateAssoc q.kwargsParams "step" "3600")
                "max_source_resolution" "1h")).params.step = "3600"
        ∧ (mkQuery q.base_url q.global_start split
             (updateAssoc (updateAssoc q.kwargsParams "step" "3600")
                "max_source_resolution" "1h")).params.maxSourceResolution
            = "1h"
        ∧ (mkQuery q.base_url split q.global_end q.kwargsParams).params.step
            = (buildParams q.global_start q.global_end q.kwargsParams).step
        ∧ (mkQuery q.base_url split q.global_end
              q.kwargsParams).params.maxSourceResolution
            = (buildParams q.global_start q.global_end
                q.kwargsParams).maxSourceResolution)
    ∧ (¬ (pyFloat q.global_end > pyFloat split
          ∧ pyFloat split > pyFloat q.global_start) →
        (pyStrGt split q.global_end = true →
          split_by_treshold q true split = [none, some q])
        ∧ (pyStrGt split q.global_end = false →
            pyStrGt q.global_start split = true →
          split_by_treshold q true split = [some q, none])
        ∧ (pyStrGt split q.global_end = false →
            pyStrGt q.global_start split = false →
          split_by_treshold q true split = [])) := by
  refine ⟨by simp [split_by_treshold], fun h1 h2 => ?_, fun hno => ?_⟩
  · refine ⟨by simp [split_by_treshold, h1, h2], ?_, ?_, ?_, ?_⟩
    · show (buildParams q.global_start split
        (updateAssoc (updateAssoc q.kwargsParams "step" "3600")
          "max_source_resolution" "1h")).step = "3600"
      apply foldl_field_of_key Params.step "step" writesOn_step
      · intro e he hek
        have he' : e ∈ updateAssoc q.kwargsParams "step" "3600" :=
          updateAssoc_mem_other _ "max_source_resolution" "1h" e he
            (by rw [hek]; decide)
        exact updateAssoc_all _ "step" "3600" e he' hek
      · exact updateAssoc_exists_other _ "max_source_resolution" "1h" "step"
          (by decide) (updateAssoc_exists _ "step" "3600")
    · show (buildParams q.global_start split
        (updateAssoc (updateAssoc q.kwargsParams "step" "3600")
          "max_source_resolution" "1h")).maxSourceResolution = "1h"
      apply foldl_field_of_key Params.maxSourceResolution
        "max_source_resolution" writesOn_msr
      · exact updateAssoc_all _ "max_source_resolution" "1h"
      · exact updateAssoc_exists _ "max_source_resolution" "1h"
    · exact foldl_field_congr Params.step "step" writesOn_step
        q.kwargsParams _ _ rfl
    · exact foldl_field_congr Params.maxSourceResolution
        "max_source_resolution" writesOn_msr q.kwargsParams _ _ rfl
  · refine ⟨fun hs => ?_, fun hs1 hs2 => ?_, fun hs1 hs2 => ?_⟩
    · simp [split_by_treshold, hno, hs]
    · simp [split_by_treshold, hno, hs1, hs2]
    · simp [split_by_treshold, hno, hs1, hs2]

theorem pyFloat_eval (s : String) (i f : List Char)
    (h : s.data.splitOn '.' = [i, f]) :
    pyFloat s = (digitsToNat i : ℚ) + (digitsToNat f : ℚ) / (10 ^ f.length) := by
  unfold pyFloat
  rw [h]

theorem pyFloat_100 : pyFloat "100.0" = 100 := by
  rw [pyFloat_eval "100.0" ['1', '0', '0'] ['0'] (by decide),
    show digitsToNat ['1', '0', '0'] = 100 from by decide,
    show digitsToNat ['0'] = 0 from by decide]
  norm_num

theorem pyFloat_200 : pyFloat "200.0" = 200 := by
  rw [pyFloat_eval "200.0" ['2', '0', '0'] ['0'] (by decide),
    show digitsToNat ['2', '0', '0'] = 200 from by decide,
    show digitsToNat ['0'] = 0 from by decide]
  norm_num

theorem pyFloat_300 : pyFloat "300.0" = 300 := by
  rw [pyFloat_eval "300.0" ['3', '0', '0'] ['0'] (by decide),
    show digitsToNat ['3', '0', '0'] = 300 from by decide,
    show digitsToNat ['0'] = 0 from by decide]
  norm_num

theorem pyFloat_5 : pyFloat "5.0" = 5 := by
  rw [pyFloat_eval "5.0" ['5'] ['0'] (by decide),
    show digitsToNat ['5'] = 5 from by decide,
    show digitsToNat ['0'] = 0 from by decide]
  norm_num

theorem pyFloat_9 : pyFloat "9.0" = 9 := by
  rw [pyFloat_eval "9.0" ['9'] ['0'] (by decide),
    show digitsToNat ['9'] = 9 from by decide,
    show digitsToNat ['0'] = 0 from by decide]
  norm_num

theorem pyFloat_10 : pyFloat "10.0" = 10 := by
  rw [pyFloat_eval "10.0" ['1', '0'] ['0'] (by decide),
    show digitsToNat ['1', '0'] = 10 from by decide,
    show digitsToNat ['0'] = 0 from by decide]
  norm_num

/-- Witness for C6: the strictly-inside case on the spec
`(start, end) = ("100.0", "300.0")` with `str(now−T) = "200.0"`. -/
theorem C6_threshold_split_witness :
    pyFloat (mkQuery "u" "100.0" "300.0" []).global_end > pyFloat "200.0"
    ∧ pyFloat "200.0" > pyFloat (mkQuery "u" "100.0" "300.0" []).global_start
    ∧ split_by_treshold (mkQuery "u" "100.0" "300.0" []) true "200.0"
        = [some (mkQuery "u" "200.0" "300.0" []),
           some (mkQuery "u" "100.0" "200.0"
             [("step", "3600"), ("max_source_resolution", "1h")])] :=
  ⟨by rw [show (mkQuery "u" "100.0" "300.0" []).global_end = "300.0" from rfl,
      pyFloat_300, pyFloat_200]; norm_num,
   by rw [show (mkQuery "u" "100.0" "300.0" []).global_start = "100.0" from rfl,
      pyFloat_100, pyFloat_200]; norm_num,
   ((C6_threshold_split (mkQuery "u" "100.0" "300.0" []) "200.0").2.1
      (by rw [show (mkQuery "u" "100.0" "300.0" []).global_end = "300.0" from rfl,
          pyFloat_300, pyFloat_200]; norm_num)
      (by rw [show (mkQuery "u" "100.0" "300.0" []).global_start = "100.0" from rfl,
          pyFloat_100, pyFloat_200]; norm_num)).1⟩

/-- Counterexample for C6 as stated: with `global_start = "5.0"`,
`global_end = "9.0"` and `str(now−T) = "10.0"` we have
`now−T = 10 > 9 = global_end` numerically, so the claim requires
`(none, original spec)`; the code compares the strings lexicographically
(`"10.0" > "9.0"` is false, `"5.0" > "10.0"` is true) and returns
`(original spec, none)` instead. -/
theorem C6_counterexample :
    pyFloat "10.0" > pyFloat (mkQuery "u" "5.0" "9.0" []).global_end
    ∧ split_by_treshold (mkQuery "u" "5.0" "9.0" []) true "10.0"
        = [some (mkQuery "u" "5.0" "9.0" []), none]
    ∧ ([some (mkQuery "u" "5.0" "9.0" []), none]
        ≠ [none, some (mkQuery "u" "5.0" "9.0" [])]) := by
  have hend : (mkQuery "u" "5.0" "9.0" []).global_end = "9.0" := rfl
  have hstart : (mkQuery "u" "5.0" "9.0" []).global_start = "5.0" := rfl
  have hnum : pyFloat "10.0" > pyFloat (mkQuery "u" "5.0" "9.0" []).global_end := by
    rw [hend, pyFloat_9, pyFloat_10]; norm_num
  refine ⟨hnum, ?_, by simp⟩
  have hcond : ¬ (pyFloat (mkQuery "u" "5.0" "9.0" []).global_end > pyFloat "10.0"
      ∧ pyFloat "10.0" > pyFloat (mkQuery "u" "5.0" "9.0" []).global_start) := by
    rw [hend, pyFloat_9, pyFloat_10]
    intro hc
    linarith [hc.1]
  have hs1 : pyStrGt "10.0" (mkQuery "u" "5.0" "9.0" []).global_end = false := by
    rw [hend]; decide
  have hs2 : pyStrGt (mkQuery "u" "5.0" "9.0" []).global_start "10.0" = true := by
    rw [hstart]; decide
  simp [split_by_treshold, hcond, hs1, hs2]

/-! ## CorrelationAnalyzer.__create_time_samples_per_time
(analyzing/correlation_analyzer.py)

The binary sampler walks a cursor from `start`, emitting one sample per grid
step. Timestamps and the gap are modelled as `Int`; Python's `//` is
`Int.fdiv`. -/

/-- One `for _ in range(n): if not cursor + gap < bound: break; append(bit);
cursor += gap` loop. Returns the emitted samples and the final cursor. -/
def emitRun (gap bound bit : Int) : Nat → Int → List Int × Int
  | 0, c => ([], c)
  | n + 1, c =>
    if c + gap < bound then
      let r := emitRun gap bound bit n (c + gap)
      (bit :: r.1, r.2)
    else ([], c)

/-- The `if start <= alert_start:` zero-fill of
`__create_time_samples_per_time`: `null_samples = (alert_start - start) //
gap`, one more when the cursor is not aligned on the range start. -/
def zeroFill (gap endB c s : Int) : List Int × Int :=
  if c ≤ s then
    let n0 := (s - c).fdiv gap
    let n1 := if c ≠ s ∧ s - n0 * gap ≠ c then n0 + 1 else n0
    emitRun gap endB 0 n1.toNat c
  else ([], c)

/-- The `if alert_start + alert_duration * self.gap >= start:` one-fill:
`one_samples = ((alert_start + alert_duration) - start) // gap + 1`. -/
def oneFill (gap endB c s d : Int) : List Int × Int :=
  if s + d * gap ≥ c then
    emitRun gap endB 1 ((s + d - c).fdiv gap + 1).toNat c
  else ([], c)

/-- The per-range loop of `__create_time_samples_per_time`: for each
`(alert_start, alert_duration)` pair, the zero-fill up to the range start,
then the one-fill. Returns the emitted samples and the final cursor. -/
def sampleLoop (gap endB : Int) : List (Int × Int) → Int → List Int × Int
  | [], c => ([], c)
  | (s, d) :: rest, c =>
    if endB < c then ([], c)
    else
      let z := zeroFill gap endB c s
      let o := oneFill gap endB z.2 s d
      let t := sampleLoop gap endB rest o.2
      (z.1 ++ o.1 ++ t.1, t.2)

/-- The epilogue of `__create_time_samples_per_time` applied to the loop
result `m`: the trailing zero-fill (`null_samples = (end - start) // gap + 1`,
bounded by `end + gap`) and the final `if end == start: samples.append(0)`. -/
def trailingFinish (gap endB : Int) (m : List Int × Int) : List Int :=
  if endB = (emitRun gap (endB + gap) 0
      (((endB - m.2).fdiv gap) + 1).toNat m.2).2 then
    m.1 ++ (emitRun gap (endB + gap) 0
      (((endB - m.2).fdiv gap) + 1).toNat m.2).1 ++ [0]
  else
    m.1 ++ (emitRun gap (endB + gap) 0
      (((endB - m.2).fdiv gap) + 1).toNat m.2).1

/-- Embedding of `CorrelationAnalyzer.__create_time_samples_per_time(data,
start, end)` with grid gap `gap`: the per-range loop, the trailing zero-fill
and the final `if end == start: append(0)`. -/
def create_time_samples_per_time (gap : Int) (data : List (Int × Int))
    (start endB : Int) : List Int :=
  trailingFinish gap endB (sampleLoop gap endB data start)

/-- The grid of the claim: ticks `start, start + gap, …` not past `endB`. -/
def gridTicks (gap start endB : Int) : List Int :=
  (List.range (((endB - start).fdiv gap) + 1).toNat).map
    (fun (j : Nat) => start + (j : Int) * gap)

/-- The claim's per-tick sample (with the amended range interpretation):
`1` when the tick lies within some range `[s, s + d]`, else `0`. -/
def sampleBit (data : List (Int × Int)) (t : Int) : Int :=
  if data.any (fun r => decide (r.1 ≤ t) && decide (t ≤ r.1 + r.2)) then 1
  else 0

/-- The claim's sampled sequence: `sampleBit` at every grid tick. -/
def gridSamples (gap : Int) (data : List (Int × Int)) (start endB : Int) :
    List Int :=
  (gridTicks gap start endB).map (sampleBit data)

theorem fdiv_eq_of (x g q r : Int) (hg : 0 < g) (hx : x = g * q + r)
    (hr0 : 0 ≤ r) (hrg : r < g) : x.fdiv g = q := by
  have h1 : g * (x.fdiv g) + x.fmod g = x := Int.fdiv_add_fmod x g
  have h2 : 0 ≤ x.fmod g := Int.fmod_nonneg' x hg
  have h3 : x.fmod g < g := Int.fmod_lt_of_pos x hg
  have hD : g * (x.fdiv g - q) = r - x.fmod g := by linarith [h1]
  rcases lt_trichotomy (x.fdiv g) q with h | h | h
  · exfalso
    have hle : x.fdiv g - q ≤ -1 := by omega
    have : g * (x.fdiv g - q) ≤ g * (-1) := by
      exact mul_le_mul_of_nonneg_left hle (le_of_lt hg)
    linarith
  · exact h
  · exfalso
    have hle : 1 ≤ x.fdiv g - q := by omega
    have : g * 1 ≤ g * (x.fdiv g - q) := by
      exact mul_le_mul_of_nonneg_left hle (le_of_lt hg)
    linarith

theorem fdiv_shift (a n g : Int) (hg : 0 < g) :
    (a + n * g).fdiv g = a.fdiv g + n := by
  have h1 : g * (a.fdiv g) + a.fmod g = a := Int.fdiv_add_fmod a g
  exact fdiv_eq_of _ g _ (a.fmod g) hg (by ring_nf; linarith [h1])
    (Int.fmod_nonneg' a hg) (Int.fmod_lt_of_pos a hg)

theorem fdiv_mul_exact (k g : Int) (hg : 0 < g) : (k * g).fdiv g = k :=
  fdiv_eq_of _ g k 0 hg (by ring) (le_refl 0) hg

theorem fdiv_neg_of_neg (a g : Int) (ha : a < 0) (hg : 0 < g) :
    a.fdiv g ≤ -1 := by
  by_contra h
  have hq : 0 ≤ a.fdiv g := by omega
  have h1 : g * (a.fdiv g) + a.fmod g = a := Int.fdiv_add_fmod a g
  have h2 : 0 ≤ a.fmod g := Int.fmod_nonneg' a hg
  have : 0 ≤ g * (a.fdiv g) := mul_nonneg (le_of_lt hg) hq
  linarith

/-- A bit-emitting loop whose count stays strictly under the bound runs to
completion. -/
theorem emitRun_full (gap bound bit : Int) (hg : 0 < gap) :
    ∀ (n : Nat) (c : Int), c + n * gap < bound →
      emitRun gap bound bit n c = (List.replicate n bit, c + n * gap) := by
  intro n
  induction n with
  | zero => intro c h; simp [emitRun]
  | succ n ih =>
    intro c h
    have hn : (0 : Int) ≤ n * gap :=
      mul_nonneg (Int.ofNat_nonneg n) (le_of_lt hg)
    have hguard : c + gap < bound := by
      have : ((n + 1 : Nat) : Int) * gap = n * gap + gap := by push_cast; ring
      rw [this] at h
      linarith
    have hrec : (c + gap) + n * gap < bound := by
      have : ((n + 1 : Nat) : Int) * gap = n * gap + gap := by push_cast; ring
      rw [this] at h
      linarith
    rw [show emitRun gap bound bit (n + 1) c
        = (bit :: (emitRun gap bound bit n (c + gap)).1,
           (emitRun gap bound bit n (c + gap)).2) by
      simp [emitRun, hguard]]
    rw [ih (c + gap) hrec]
    refine congrArg₂ Prod.mk rfl ?_
    push_cast
    ring

/-- A bit-emitting loop stops at once when the guard fails. -/
theorem emitRun_stop (gap bound bit : Int) (n : Nat) (c : Int)
    (h : ¬ c + gap < bound) : emitRun gap bound bit n c = ([], c) := by
  cases n with
  | zero => rfl
  | succ n => simp [emitRun, h]

/-- Each emitted sample advances the cursor by one gap, and any emission
leaves the cursor strictly below the bound minus the gap step offset. -/
theorem emitRun_invariant (gap bound bit : Int) :
    ∀ (n : Nat) (c : Int),
      (emitRun gap bound bit n c).2
          = c + (emitRun gap bound bit n c).1.length * gap
      ∧ ((emitRun gap bound bit n c).2 = c
          ∨ (emitRun gap bound bit n c).2 < bound) := by
  intro n
  induction n with
  | zero => intro c; simp [emitRun]
  | succ n ih =>
    intro c
    by_cases hguard : c + gap < bound
    · rw [show emitRun gap bound bit (n + 1) c
          = (bit :: (emitRun gap bound bit n (c + gap)).1,
             (emitRun gap bound bit n (c + gap)).2) by
        simp [emitRun, hguard]]
      obtain ⟨ih1, ih2⟩ := ih (c + gap)
      constructor
      · simp only [List.length_cons, ih1]
        push_cast
        ring
      · rcases ih2 with h | h
        · right; rw [h]; exact hguard
        · right; exact h
    · rw [emitRun_stop gap bound bit (n + 1) c hguard]
      simp

theorem zeroFill_invariant (gap endB c s : Int) :
    (zeroFill gap endB c s).2 = c + (zeroFill gap endB c s).1.length * gap
    ∧ ((zeroFill gap endB c s).2 = c ∨ (zeroFill gap endB c s).2 < endB) := by
  unfold zeroFill
  split_ifs with h1
  · exact emitRun_invariant gap endB 0 _ c
  · simp

theorem oneFill_invariant (gap endB c s d : Int) :
    (oneFill gap endB c s d).2 = c + (oneFill gap endB c s d).1.length * gap
    ∧ ((oneFill gap endB c s d).2 = c ∨ (oneFill gap endB c s d).2 < endB) := by
  unfold oneFill
  split_ifs with h1
  · exact emitRun_invariant gap endB 1 _ c
  · simp

/-- The per-range loop advances the cursor by one gap per emitted sample,
and leaves the cursor either untouched or strictly below `endB`. -/
theorem sampleLoop_invariant (gap endB : Int) :
    ∀ (data : List (Int × Int)) (c : Int),
      (sampleLoop gap endB data c).2
          = c + (sampleLoop gap endB data c).1.length * gap
      ∧ ((sampleLoop gap endB data c).2 = c
          ∨ (sampleLoop gap endB data c).2 < endB) := by
  intro data
  induction data with
  | nil => intro c; simp [sampleLoop]
  | cons hd rest ih =>
    intro c
    obtain ⟨s, d⟩ := hd
    by_cases hbreak : endB < c
    · simp [sampleLoop, hbreak]
    · rw [show sampleLoop gap endB ((s, d) :: rest) c
          = ((zeroFill gap endB c s).1
              ++ (oneFill gap endB (zeroFill gap endB c s).2 s d).1
              ++ (sampleLoop gap endB rest
                    (oneFill gap endB (zeroFill gap endB c s).2 s d).2).1,
             (sampleLoop gap endB rest
                (oneFill gap endB (zeroFill gap endB c s).2 s d).2).2) by
        simp [sampleLoop, hbreak]]
      set Z := zeroFill gap endB c s with hZ
      set O := oneFill gap endB Z.2 s d with hO
      set T := sampleLoop gap endB rest O.2 with hT
      obtain ⟨hz1, hz2⟩ := zeroFill_invariant gap endB c s
      obtain ⟨ho1, ho2⟩ := oneFill_invariant gap endB Z.2 s d
      obtain ⟨ht1, ht2⟩ := ih O.2
      rw [← hZ] at hz1 hz2
      rw [← hO] at ho1 ho2
      rw [← hT] at ht1 ht2
      constructor
      · simp only [List.length_append]
        rw [ht1, ho1, hz1]
        push_cast
        ring
      · rcases ht2 with h | h
        · rw [h]
          rcases ho2 with h' | h'
          · rw [h']
            exact hz2
          · right; exact h'
        · right; exact h

/-- Trailing zero-fill, aligned case: when the remaining distance to `endB`
is exactly `k` gaps, the fill emits `k` zeros and stops on `endB`. -/
theorem trailingFill_exact (gap endB : Int) (hg : 0 < gap) :
    ∀ (k : Nat) (c : Int), endB - c = k * gap →
      emitRun gap (endB + gap) 0 (k + 1) c = (List.replicate k 0, endB) := by
  intro k
  induction k with
  | zero =>
    intro c h
    have hc : c = endB := by push_cast at h; omega
    rw [emitRun_stop gap (endB + gap) 0 1 c (by omega), hc]
    rfl
  | succ k ih =>
    intro c h
    have hkg : (0 : Int) ≤ k * gap :=
      mul_nonneg (Int.ofNat_nonneg k) (le_of_lt hg)
    have hceb : c < endB := by
      have : ((k + 1 : Nat) : Int) * gap = k * gap + gap := by push_cast; ring
      rw [this] at h
      linarith
    have hguard : c + gap < endB + gap := by linarith
    rw [show emitRun gap (endB + gap) 0 (k + 1 + 1) c
        = (0 :: (emitRun gap (endB + gap) 0 (k + 1) (c + gap)).1,
           (emitRun gap (endB + gap) 0 (k + 1) (c + gap)).2) by
      simp [emitRun, hguard]]
    rw [ih (c + gap) (by
      have : ((k + 1 : Nat) : Int) * gap = k * gap + gap := by push_cast; ring
      rw [this] at h
      linarith)]
    rfl

/-- Trailing zero-fill, misaligned case: remaining distance `k` gaps plus a
positive remainder `r < gap` - the fill exhausts its `k + 1` iterations. -/
theorem trailingFill_inexact (gap endB : Int) (hg : 0 < gap) :
    ∀ (k : Nat) (c r : Int), endB - c = k * gap + r → 0 < r → r < gap →
      emitRun gap (endB + gap) 0 (k + 1) c
        = (List.replicate (k + 1) 0, c + (k + 1) * gap) := by
  intro k
  induction k with
  | zero =>
    intro c r h hr0 hrg
    have hguard : c + gap < endB + gap := by push_cast at h; omega
    rw [show emitRun gap (endB + gap) 0 1 c
        = (0 :: (emitRun gap (endB + gap) 0 0 (c + gap)).1,
           (emitRun gap (endB + gap) 0 0 (c + gap)).2) by
      simp [emitRun, hguard]]
    simp [emitRun]
  | succ k ih =>
    intro c r h hr0 hrg
    have hkg : (0 : Int) ≤ k * gap :=
      mul_nonneg (Int.ofNat_nonneg k) (le_of_lt hg)
    have hguard : c + gap < endB + gap := by
      have : ((k + 1 : Nat) : Int) * gap = k * gap + gap := by push_cast; ring
      rw [this] at h
      linarith
    rw [show emitRun gap (endB + gap) 0 (k + 1 + 1) c
        = (0 :: (emitRun gap (endB + gap) 0 (k + 1) (c + gap)).1,
           (emitRun gap (endB + gap) 0 (k + 1) (c + gap)).2) by
      simp [emitRun, hguard]]
    rw [ih (c + gap) r (by
      have : ((k + 1 : Nat) : Int) * gap = k * gap + gap := by push_cast; ring
      rw [this] at h
      linarith) hr0 hrg]
    refine congrArg₂ Prod.mk rfl ?_
    push_cast
    ring

/-- The sampler's output always has exactly as many entries as the grid
`start, start + gap, …, ≤ endB` has ticks, whatever the range data. -/
theorem sampler_length_eq_grid (gap : Int) (hg : 0 < gap)
    (data : List (Int × Int)) (start endB : Int) :
    (create_time_samples_per_time gap data start endB).length
      = (gridTicks gap start endB).length := by
  obtain ⟨hm1, hm2⟩ := sampleLoop_invariant gap endB data start
  unfold create_time_samples_per_time trailingFinish
  set m := sampleLoop gap endB data start with hmdef
  have hgrid : (gridTicks gap start endB).length
      = (((endB - start).fdiv gap) + 1).toNat := by
    unfold gridTicks
    rw [List.length_map, List.length_range]
  rw [hgrid]
  by_cases hc : m.2 ≤ endB
  · have hq0 : 0 ≤ (endB - m.2).fdiv gap :=
      Int.fdiv_nonneg (by linarith) (le_of_lt hg)
    have hfdm : gap * ((endB - m.2).fdiv gap) + (endB - m.2).fmod gap
        = endB - m.2 := Int.fdiv_add_fmod _ _
    have hr0 : 0 ≤ (endB - m.2).fmod gap := Int.fmod_nonneg' _ hg
    have hrg : (endB - m.2).fmod gap < gap := Int.fmod_lt_of_pos _ hg
    have hcount : (((endB - m.2).fdiv gap) + 1).toNat
        = ((endB - m.2).fdiv gap).toNat + 1 := by omega
    have hshift : (endB - start).fdiv gap
        = (endB - m.2).fdiv gap + m.1.length := by
      have : endB - start = (endB - m.2) + m.1.length * gap := by
        rw [hm1]; ring
      rw [this, fdiv_shift _ _ _ hg]
    by_cases hr : (endB - m.2).fmod gap = 0
    · have hk : endB - m.2 = (((endB - m.2).fdiv gap).toNat : Int) * gap := by
        rw [Int.toNat_of_nonneg hq0]; linarith
      rw [hcount, trailingFill_exact gap endB hg _ m.2 hk]
      rw [if_pos rfl]
      simp only [List.length_append, List.length_replicate, List.length_cons,
        List.length_nil]
      omega
    · have hk : endB - m.2 = (((endB - m.2).fdiv gap).toNat : Int) * gap
          + (endB - m.2).fmod gap := by
        rw [Int.toNat_of_nonneg hq0]; linarith
      rw [hcount, trailingFill_inexact gap endB hg _ m.2 _ hk
        (lt_of_le_of_ne hr0 (Ne.symm hr)) hrg]
      have hne : ¬ endB = m.2 + ((((endB - m.2).fdiv gap).toNat : Int) + 1) * gap := by
        intro hcon
        have : endB - m.2 = (((endB - m.2).fdiv gap).toNat : Int) * gap + gap := by
          linarith [hcon]
        rw [hk] at this
        linarith
      rw [if_neg (by push_cast at hne ⊢; exact hne)]
      simp only [List.length_append, List.length_replicate]
      omega
  · have hcs : m.2 = start := by
      rcases hm2 with h | h
      · exact h
      · exact absurd h (by linarith)
    have hL : m.1.length = 0 := by
      have h0 : (m.1.length : Int) * gap = 0 := by
        rw [hcs] at hm1
        linarith
      rcases mul_eq_zero.mp h0 with h | h
      · exact_mod_cast h
      · exact absurd h (ne_of_gt hg)
    have hneg : (endB - m.2).fdiv gap ≤ -1 :=
      fdiv_neg_of_neg _ _ (by linarith) hg
    have hcount0 : (((endB - m.2).fdiv gap) + 1).toNat = 0 := by omega
    rw [hcount0]
    have hneg' : (endB - start).fdiv gap ≤ -1 :=
      fdiv_neg_of_neg _ _ (by rw [← hcs]; linarith) hg
    rw [show emitRun gap (endB + gap) 0 0 m.2 = ([], m.2) from rfl]
    rw [if_neg (show ¬ endB = (([], m.2) : List Int × Int).2 by
      intro hcon
      exact hc (le_of_eq hcon.symm))]
    simp only [List.length_append, List.length_nil]
    omega


theorem sampleBit_eq_zero (data : List (Int × Int)) (t : Int)
    (h : ∀ r ∈ data, ¬ (r.1 ≤ t ∧ t ≤ r.1 + r.2)) : sampleBit data t = 0 := by
  unfold sampleBit
  rw [if_neg]
  intro hc
  rcases List.any_eq_true.mp hc with ⟨r, hr, hrt⟩
  simp only [Bool.and_eq_true, decide_eq_true_eq] at hrt
  exact h r hr hrt

theorem sampleBit_cons_one (s d t : Int) (rest : List (Int × Int))
    (h1 : s ≤ t) (h2 : t ≤ s + d) : sampleBit ((s, d) :: rest) t = 1 := by
  unfold sampleBit
  rw [if_pos]
  apply List.any_eq_true.mpr
  refine ⟨(s, d), List.mem_cons_self _ _, ?_⟩
  simp only [Bool.and_eq_true, decide_eq_true_eq]
  exact ⟨h1, h2⟩

theorem sampleBit_cons_tail (s d t : Int) (rest : List (Int × Int))
    (h : ¬ (s ≤ t ∧ t ≤ s + d)) :
    sampleBit ((s, d) :: rest) t = sampleBit rest t := by
  unfold sampleBit
  rw [List.any_cons]
  have hfalse : (decide (s ≤ t) && decide (t ≤ s + d)) = false := by
    rcases Decidable.not_and_iff_or_not.mp h with h' | h'
    · simp [h']
    · simp [h']
  rw [hfalse, Bool.false_or]

/-- The zero-fill on a cursor aligned `k` whole gaps before the range start
emits exactly `k` zeros and lands on the range start. -/
theorem zeroFill_aligned (gap endB c s : Int) (hg : 0 < gap) (hcs : c ≤ s)
    (k : Int) (hk : s - c = k * gap) (hk0 : 0 ≤ k) (hsE : s < endB) :
    zeroFill gap endB c s = (List.replicate k.toNat 0, s) := by
  have hn0 : (s - c).fdiv gap = k := by rw [hk, fdiv_mul_exact k gap hg]
  have hali : ¬ (c ≠ s ∧ s - (s - c).fdiv gap * gap ≠ c) := by
    rw [hn0]
    intro hcon
    exact hcon.2 (by linarith)
  unfold zeroFill
  rw [if_pos hcs]
  dsimp only
  rw [if_neg hali, hn0]
  have hcb : c + ((k.toNat : Nat) : Int) * gap < endB := by
    rw [Int.toNat_of_nonneg hk0]
    linarith
  rw [emitRun_full gap endB 0 hg k.toNat c hcb]
  refine congrArg₂ Prod.mk rfl ?_
  rw [Int.toNat_of_nonneg hk0]
  linarith

/-- The one-fill started exactly on the range start of a range of `e` whole
gaps emits `e + 1` ones and lands one gap past the range end. -/
theorem oneFill_aligned (gap endB s d : Int) (hg : 0 < gap)
    (e : Int) (he : d = e * gap) (he0 : 0 ≤ e) (hend : s + d + gap < endB) :
    oneFill gap endB s s d = (List.replicate (e.toNat + 1) 1, s + d + gap) := by
  have hd0 : 0 ≤ d := by
    rw [he]
    exact mul_nonneg he0 (le_of_lt hg)
  unfold oneFill
  rw [if_pos (by nlinarith)]
  have hcnt : (s + d - s).fdiv gap = e := by
    rw [show s + d - s = e * gap by rw [he]; ring, fdiv_mul_exact e gap hg]
  rw [hcnt, show (e + 1).toNat = e.toNat + 1 from by omega]
  have hcb : s + ((e.toNat + 1 : Nat) : Int) * gap < endB := by
    push_cast
    rw [Int.toNat_of_nonneg he0]
    nlinarith [he]
  rw [emitRun_full gap endB 1 hg (e.toNat + 1) s hcb]
  refine congrArg₂ Prod.mk rfl ?_
  push_cast
  rw [Int.toNat_of_nonneg he0]
  linarith [he]

/-- The aligned-run shape of the per-range loop: with every range aligned on
the cursor grid, starting at or after the cursor, separated from the next
range by at least one gap, and ending at least one gap before `endB`, the
loop emits exactly the claim's indicator sequence and leaves the cursor one
gap past the last range end. -/
theorem sampleLoop_aligned (gap endB : Int) (hg : 0 < gap) :
    ∀ (data : List (Int × Int)) (c : Int),
      (∀ r ∈ data, c ≤ r.1 ∧ gap ∣ (r.1 - c) ∧ gap ∣ r.2 ∧ 0 ≤ r.2
          ∧ r.1 + r.2 + gap < endB) →
      List.Pairwise (fun r r' => r.1 + r.2 + gap ≤ r'.1) data →
      ∃ N : Nat,
        sampleLoop gap endB data c
          = ((List.range N).map
              (fun (j : Nat) => sampleBit data (c + (j : Int) * gap)),
             c + (N : Int) * gap)
        ∧ (∀ r ∈ data, r.1 + r.2 < c + (N : Int) * gap)
        ∧ (data ≠ [] → c + (N : Int) * gap ≤ endB)
        ∧ (data = [] → N = 0) := by
  intro data
  induction data with
  | nil =>
    intro c _ _
    exact ⟨0, by simp [sampleLoop], by simp, by simp, fun _ => rfl⟩
  | cons hd rest ih =>
    intro c hal hsep
    obtain ⟨s, d⟩ := hd
    obtain ⟨hcs, hdvs, hdvd, hd0, hend⟩ := hal (s, d) (List.mem_cons_self _ _)
    dsimp only at hcs hdvs hdvd hd0 hend
    obtain ⟨k, hk⟩ := hdvs
    obtain ⟨e, he⟩ := hdvd
    rw [mul_comm] at hk he
    have hk0 : 0 ≤ k := by
      by_contra hneg
      have h1 : k * gap ≤ (-1) * gap :=
        mul_le_mul_of_nonneg_right (by omega) (le_of_lt hg)
      have h2 : s - c < 0 := by rw [hk]; linarith
      linarith
    have he0 : 0 ≤ e := by
      by_contra hneg
      have h1 : e * gap ≤ (-1) * gap :=
        mul_le_mul_of_nonneg_right (by omega) (le_of_lt hg)
      have h2 : d < 0 := by rw [he]; linarith
      linarith
    have hsE : s < endB := by linarith
    have hzf := zeroFill_aligned gap endB c s hg hcs k hk hk0 hsE
    have hof := oneFill_aligned gap endB s d hg e he he0 hend
    have hrest : ∀ r ∈ rest, s + d + gap ≤ r.1 ∧ gap ∣ (r.1 - (s + d + gap))
        ∧ gap ∣ r.2 ∧ 0 ≤ r.2 ∧ r.1 + r.2 + gap < endB := by
      intro r hr
      obtain ⟨h1, h2, h3, h4, h5⟩ := hal r (List.mem_cons_of_mem _ hr)
      have hsep1 : s + d + gap ≤ r.1 := by
        have := (List.pairwise_cons.mp hsep).1 r hr
        dsimp only at this
        exact this
      refine ⟨hsep1, ?_, h3, h4, h5⟩
      have heq : r.1 - (s + d + gap) = (r.1 - c) - (s - c) - d - gap := by ring
      rw [heq]
      exact dvd_sub (dvd_sub (dvd_sub h2 ⟨k, by rw [hk]; ring⟩)
        ⟨e, by rw [he]; ring⟩) (dvd_refl gap)
    obtain ⟨N', hN'eq, hN'bound, hN'ne, hN'nil⟩ :=
      ih (s + d + gap) hrest (List.pairwise_cons.mp hsep).2
    have hcursor : c + ((k.toNat + (e.toNat + 1) + N' : Nat) : Int) * gap
        = s + d + gap + (N' : Int) * gap := by
      push_cast
      rw [Int.toNat_of_nonneg hk0, Int.toNat_of_nonneg he0]
      have h1 : s = c + k * gap := by linarith [hk]
      have h2 : d = e * gap := he
      rw [h1, h2]
      ring
    refine ⟨k.toNat + (e.toNat + 1) + N', ?_, ?_, ?_, by simp⟩
    · rw [show sampleLoop gap endB ((s, d) :: rest) c
          = ((zeroFill gap endB c s).1
              ++ (oneFill gap endB (zeroFill gap endB c s).2 s d).1
              ++ (sampleLoop gap endB rest
                    (oneFill gap endB (zeroFill gap endB c s).2 s d).2).1,
             (sampleLoop gap endB rest
                (oneFill gap endB (zeroFill gap endB c s).2 s d).2).2) by
        simp [sampleLoop, not_lt.mpr (le_of_lt (lt_of_le_of_lt hcs hsE))]]
      rw [hzf]
      rw [show ((List.replicate k.toNat 0, s) : List Int × Int).2 = s from rfl]
      rw [hof]
      rw [show ((List.replicate (e.toNat + 1) 1, s + d + gap)
          : List Int × Int).2 = s + d + gap from rfl]
      rw [hN'eq]
      refine congrArg₂ Prod.mk ?_ hcursor.symm
      rw [List.range_add, List.range_add, List.map_append, List.map_append,
        List.map_map, List.map_map]
      dsimp only
      congr 1
      · congr 1
        · symm
          rw [List.eq_replicate_iff]
          refine ⟨by rw [List.length_map, List.length_range], ?_⟩
          intro b hb
          rcases List.mem_map.mp hb with ⟨j, hj, hjb⟩
          have hjk : (j : Int) < k := by
            have := List.mem_range.mp hj
            omega
          rw [← hjb]
          apply sampleBit_eq_zero
          intro r hr hcon
          have htick : c + (j : Int) * gap < s := by
            have h1 : ((j : Int) + 1) * gap ≤ k * gap :=
              mul_le_mul_of_nonneg_right (by omega) (le_of_lt hg)
            have h2 : s = c + k * gap := by linarith [hk]
            nlinarith
          rcases List.mem_cons.mp hr with heq | hmem
          · rw [heq] at hcon
            dsimp only at hcon
            linarith [hcon.1]
          · have h1 := (hrest r hmem).1
            linarith [hcon.1]
        · symm
          rw [List.eq_replicate_iff]
          refine ⟨by rw [List.length_map, List.length_range], ?_⟩
          intro b hb
          rcases List.mem_map.mp hb with ⟨j, hj, hjb⟩
          have hje : (j : Int) ≤ e := by
            have := List.mem_range.mp hj
            omega
          rw [← hjb]
          have htick : c + ((k.toNat + j : Nat) : Int) * gap
              = s + (j : Int) * gap := by
            push_cast
            rw [Int.toNat_of_nonneg hk0]
            have h1 : s = c + k * gap := by linarith [hk]
            rw [h1]
            ring
          rw [Function.comp_apply, htick]
          refine sampleBit_cons_one s d _ rest ?_ ?_
          · nlinarith
          · rw [he]
            nlinarith
      · apply List.map_congr_left
        intro j _
        have htick : c + ((k.toNat + (e.toNat + 1) + j : Nat) : Int) * gap
            = s + d + gap + (j : Int) * gap := by
          push_cast
          rw [Int.toNat_of_nonneg hk0, Int.toNat_of_nonneg he0]
          have h1 : s = c + k * gap := by linarith [hk]
          rw [h1, he]
          ring
        rw [Function.comp_apply, htick]
        refine (sampleBit_cons_tail s d _ rest ?_).symm
        intro hcon
        have h1 : (0 : Int) ≤ (j : Int) * gap :=
          mul_nonneg (Int.ofNat_nonneg j) (le_of_lt hg)
        linarith [hcon.2]
    · intro r hr
      rw [hcursor]
      have hNg : (0 : Int) ≤ (N' : Int) * gap :=
        mul_nonneg (Int.ofNat_nonneg N') (le_of_lt hg)
      rcases List.mem_cons.mp hr with heq | hmem
      · rw [heq]
        dsimp only
        linarith
      · have := hN'bound r hmem
        linarith
    · intro _
      rw [hcursor]
      cases rest with
      | nil =>
        rw [hN'nil rfl]
        push_cast
        linarith
      | cons r2 rest2 =>
        exact hN'ne (by simp)

/-- The sampler epilogue always appends exactly
`((endB − cursor) // gap + 1).toNat` zeros (the final `end == start` branch
accounts for the aligned case). -/
theorem trailingFinish_spec (gap : Int) (hg : 0 < gap) (endB : Int)
    (l : List Int) (c : Int) :
    trailingFinish gap endB (l, c)
      = l ++ List.replicate (((endB - c).fdiv gap) + 1).toNat 0 := by
  unfold trailingFinish
  dsimp only
  by_cases hc : c ≤ endB
  · have hq0 : 0 ≤ (endB - c).fdiv gap :=
      Int.fdiv_nonneg (by linarith) (le_of_lt hg)
    have hfdm : gap * ((endB - c).fdiv gap) + (endB - c).fmod gap
        = endB - c := Int.fdiv_add_fmod _ _
    have hr0 : 0 ≤ (endB - c).fmod gap := Int.fmod_nonneg' _ hg
    have hrg : (endB - c).fmod gap < gap := Int.fmod_lt_of_pos _ hg
    have hcount : (((endB - c).fdiv gap) + 1).toNat
        = ((endB - c).fdiv gap).toNat + 1 := by omega
    by_cases hr : (endB - c).fmod gap = 0
    · have hk : endB - c = ((((endB - c).fdiv gap).toNat : Nat) : Int) * gap := by
        rw [Int.toNat_of_nonneg hq0]; linarith
      rw [hcount, trailingFill_exact gap endB hg _ c hk]
      rw [if_pos rfl]
      rw [List.append_assoc, ← List.replicate_succ']
    · have hk : endB - c = ((((endB - c).fdiv gap).toNat : Nat) : Int) * gap
          + (endB - c).fmod gap := by
        rw [Int.toNat_of_nonneg hq0]; linarith
      rw [hcount, trailingFill_inexact gap endB hg _ c _ hk
        (lt_of_le_of_ne hr0 (Ne.symm hr)) hrg]
      rw [if_neg (by
        intro hcon
        dsimp only at hcon
        rw [show ((((((endB - c).fdiv gap).toNat : Nat) : Int)) + 1) * gap
            = ((((endB - c).fdiv gap).toNat : Nat) : Int) * gap + gap from
          by ring] at hcon
        linarith [hk, hrg])]
  · have hneg : (endB - c).fdiv gap ≤ -1 :=
      fdiv_neg_of_neg _ _ (by linarith) hg
    have hcount0 : (((endB - c).fdiv gap) + 1).toNat = 0 := by omega
    rw [hcount0]
    rw [show emitRun gap (endB + gap) 0 0 c = ([], c) from rfl]
    rw [if_neg (by
      intro hcon
      exact hc (le_of_eq hcon.symm))]
    simp

/-- Under the alignment, ordering, separation and in-bounds hypotheses, the
sampler's output is exactly the claim's indicator sequence over the grid,
with each range `(s, d)` occupying the ticks of `[s, s + d]` (`d` counted in
seconds). -/
theorem sampler_aligned_eq_grid (gap : Int) (hg : 0 < gap)
    (data : List (Int × Int)) (start endB : Int)
    (hal : ∀ r ∈ data, start ≤ r.1 ∧ gap ∣ (r.1 - start) ∧ gap ∣ r.2
        ∧ 0 ≤ r.2 ∧ r.1 + r.2 + gap < endB)
    (hsep : List.Pairwise (fun r r' => r.1 + r.2 + gap ≤ r'.1) data) :
    create_time_samples_per_time gap data start endB
      = gridSamples gap data start endB := by
  obtain ⟨N, hNeq, hNbound, hNne, hNnil⟩ :=
    sampleLoop_aligned gap endB hg data start hal hsep
  unfold create_time_samples_per_time
  rw [hNeq]
  rw [trailingFinish_spec gap hg endB _ (start + (N : Int) * gap)]
  unfold gridSamples gridTicks
  rw [List.map_map]
  have hGN : (((endB - start).fdiv gap) + 1).toNat
      = N + (((endB - (start + (N : Int) * gap)).fdiv gap) + 1).toNat := by
    rcases eq_or_ne data ([] : List (Int × Int)) with hnil | hne
    · rw [hNnil hnil]
      push_cast
      simp
    · have hcN : start + (N : Int) * gap ≤ endB := hNne hne
      have hqc : 0 ≤ (endB - (start + (N : Int) * gap)).fdiv gap :=
        Int.fdiv_nonneg (by linarith) (le_of_lt hg)
      have hshift : (endB - start).fdiv gap
          = (endB - (start + (N : Int) * gap)).fdiv gap + N := by
        have hsum : endB - start
            = (endB - (start + (N : Int) * gap)) + (N : Int) * gap := by ring
        rw [hsum, fdiv_shift _ _ _ hg]
      omega
  rw [hGN, List.range_add, List.map_append, List.map_map]
  congr 1
  symm
  rw [List.eq_replicate_iff]
  refine ⟨by rw [List.length_map, List.length_range], ?_⟩
  intro b hb
  rcases List.mem_map.mp hb with ⟨j, _, hjb⟩
  rw [← hjb]
  have hjg : (0 : Int) ≤ (j : Int) * gap :=
    mul_nonneg (Int.ofNat_nonneg j) (le_of_lt hg)
  apply sampleBit_eq_zero
  intro r hr hcon
  have hb1 := hNbound r hr
  have htick : start + ((N + j : Nat) : Int) * gap
      = start + (N : Int) * gap + (j : Int) * gap := by
    push_cast
    ring
  simp only at hcon
  rw [htick] at hcon
  linarith [hcon.2]

/-- C7 (amended): in the correlation engine's binary sampling, the sequence
length depends only on `start`, `end` and the gap `G` — identical for every
alertname within a cluster, whatever the ranges. For grid-aligned range
lists (each range starting on the grid at or after `start`, with duration a
non-negative multiple of `G`, sorted with at least one grid gap between
consecutive ranges, and ending at least one gap before `end`), a grid tick
`t` is sampled as `1` iff it lies within some range, where a range `(s, d)`
occupies exactly the grid ticks of `[s, s + d]` — `d` counts seconds, i.e.
`d/G` grid gaps, not `d` grid gaps; ticks before the first range and
between ranges are `0`. -/
theorem C7_binary_sampler :
    (∀ (gap : Int) (data : List (Int × Int)) (start endB : Int), 0 < gap →
        (create_time_samples_per_time gap data start endB).length
          = (create_time_samples_per_time gap [] start endB).length)
    ∧ (∀ (gap : Int) (data : List (Int × Int)) (start endB : Int), 0 < gap →
        (∀ r ∈ data, start ≤ r.1 ∧ gap ∣ (r.1 - start) ∧ gap ∣ r.2
            ∧ 0 ≤ r.2 ∧ r.1 + r.2 + gap < endB) →
        List.Pairwise (fun r r' => r.1 + r.2 + gap ≤ r'.1) data →
        create_time_samples_per_time gap data start endB
          = gridSamples gap data start endB) := by
  constructor
  · intro gap data start endB hg
    rw [sampler_length_eq_grid gap hg data start endB,
      sampler_length_eq_grid gap hg [] start endB]
  · intro gap data start endB hg hal hsep
    exact sampler_aligned_eq_grid gap hg data start endB hal hsep

/-- Witness for C7: the aligned statement applied to one range `(60, 120)`
on the grid `0, 60, …, 420` with `end = 430`. -/
theorem C7_binary_sampler_witness :
    ((0 : Int) < 60
      ∧ (∀ r ∈ ([(60, 120)] : List (Int × Int)),
          (0 : Int) ≤ r.1 ∧ (60 : Int) ∣ (r.1 - 0) ∧ (60 : Int) ∣ r.2
            ∧ 0 ≤ r.2 ∧ r.1 + r.2 + 60 < 430)
      ∧ List.Pairwise (fun (r r' : Int × Int) => r.1 + r.2 + 60 ≤ r'.1)
          [(60, 120)])
    ∧ create_time_samples_per_time 60 [(60, 120)] 0 430
        = gridSamples 60 [(60, 120)] 0 430 :=
  ⟨⟨by decide, by decide, by decide⟩,
    C7_binary_sampler.2 60 [(60, 120)] 0 430 (by decide) (by decide)
      (by decide)⟩

/-- Counterexample for C7 as stated: with `G = 60`, `start = 0`, `end = 300`
and the single range `(0, 60)`, the grid tick `120 = 0 + 2·G` lies within
the claim's reading of the range (`s … s + d·G = 0 … 3600`), yet the sampler
emits `0` there: the output is `[1, 1, 0, 0, 0, 0]` — the duration is
divided by the gap, not multiplied. -/
theorem C7_counterexample :
    create_time_samples_per_time 60 [(0, 60)] 0 300 = [1, 1, 0, 0, 0, 0]
    ∧ (create_time_samples_per_time 60 [(0, 60)] 0 300).get? 2 = some 0
    ∧ ((0 : Int) ≤ 0 + 2 * 60 ∧ 0 + 2 * 60 ≤ 0 + 60 * 60) := by
  refine ⟨by decide, by decide, by decide⟩

/-! ## CorrelationAnalyzer matrix accumulation
(`__calc_corrcoefficient_per_cluster`, `__calc_matrix_results`)

The matrix `self.matrix` of `[sum, count]` cells is modelled as a function
of the two alert indices. The pandas `Series.corr` coefficient is an
abstract function `corr : List ℚ → List ℚ → Option ℚ`; `none` models a NaN
result, which the code replaces by `0` (`if str(res) == "nan": res = 0`)
before accumulating. `cluster[indent:]` slices *rows* of the DataFrame, so
the inner iteration runs over all columns; every ordered pair of columns is
accumulated once per cluster. -/

/-- The `[sum, count]` accumulator matrix, indexed by alert positions. -/
def CorrMat : Type := Nat → Nat → ℚ × Nat

/-- `self.matrix` initialisation: every cell `[0, 0]`. -/
def initMatrix : CorrMat := fun _ _ => (0, 0)

/-- NaN replacement before accumulation. -/
def nanToZero (r : Option ℚ) : ℚ :=
  match r with
  | none => 0
  | some v => v

/-- `self.matrix[i][j][0] += res; self.matrix[i][j][1] += 1`. -/
def updateCell (M : CorrMat) (i j : Nat) (r : ℚ) : CorrMat :=
  fun i' j' => if i' = i ∧ j' = j then ((M i j).1 + r, (M i j).2 + 1)
               else M i' j'

/-- `__calc_corrcoefficient_per_cluster`: the double loop over the cluster's
columns, accumulating into the cells indexed by the positions of the two
alertnames in the global alert list. -/
def calcCorrPerCluster (corr : List ℚ → List ℚ → Option ℚ)
    (alerts : List String) (M : CorrMat)
    (cluster : List (String × List ℚ)) : CorrMat :=
  cluster.foldl
    (fun M1 e1 =>
      cluster.foldl
        (fun M2 e2 =>
          updateCell M2 (alerts.indexOf e1.1) (alerts.indexOf e2.1)
            (nanToZero (corr e1.2 e2.2)))
        M1)
    M

/-- All clusters accumulated into the initial matrix (the worker threads'
updates are serialized by the interpreter; accumulation order is the list
order here, and the cell contents are order-independent sums). -/
def accumulateClusters (corr : List ℚ → List ℚ → Option ℚ)
    (alerts : List String) (clusters : List (List (String × List ℚ))) :
    CorrMat :=
  clusters.foldl (calcCorrPerCluster corr alerts) initMatrix

/-- `__calc_matrix_results`: collapse each cell to `sum/count`, `0` when the
count is `0`. -/
def calcMatrixResults (M : CorrMat) : Nat → Nat → ℚ :=
  fun i j => if (M i j).2 = 0 then 0 else (M i j).1 / ((M i j).2 : ℚ)

/-- Spec-side: the per-cluster coefficients of the pair `(a, b)`, one for
each cluster containing both alertnames, NaN already replaced by zero. -/
def pairContribs (corr : List ℚ → List ℚ → Option ℚ) (a b : String)
    (clusters : List (List (String × List ℚ))) : List ℚ :=
  clusters.filterMap (fun cl =>
    match cl.lookup a, cl.lookup b with
    | some sa, some sb => some (nanToZero (corr sa sb))
    | _, _ => none)

theorem filter_idx_eq_lookup (alerts : List String) (b : String)
    (hb : b ∈ alerts) :
    ∀ (cl : List (String × List ℚ)), (∀ e ∈ cl, e.1 ∈ alerts) →
      (cl.map Prod.fst).Nodup →
      cl.filter (fun e => alerts.indexOf e.1 == alerts.indexOf b)
        = (match cl.lookup b with
           | some sb => [(b, sb)]
           | none => []) := by
  intro cl
  induction cl with
  | nil => intro _ _; rfl
  | cons e rest ih =>
    intro hcl hclnd
    obtain ⟨n, sq⟩ := e
    have hn : n ∈ alerts := by
      have := hcl (n, sq) (List.mem_cons_self _ _)
      simpa using this
    have hnd' : (n ∉ rest.map Prod.fst) ∧ (rest.map Prod.fst).Nodup := by
      rw [List.map_cons, List.nodup_cons] at hclnd
      exact hclnd
    by_cases heb : n = b
    · rw [List.filter_cons, if_pos (by simp [heb])]
      have hbn : ∀ e2 ∈ rest, e2.1 ≠ b := by
        intro e2 he2 hcon
        refine hnd'.1 ?_
        rw [heb, ← hcon]
        exact List.mem_map_of_mem _ he2
      have hrestf : rest.filter
          (fun e2 => alerts.indexOf e2.1 == alerts.indexOf b) = [] := by
        rw [List.filter_eq_nil_iff]
        intro e2 he2
        simp only [beq_iff_eq]
        intro hcon
        exact hbn e2 he2
          ((List.indexOf_inj (hcl e2 (List.mem_cons_of_mem _ he2)) hb).mp hcon)
      rw [hrestf]
      rw [show ((n, sq) :: rest).lookup b = some sq by
        simp [List.lookup, beq_iff_eq.mpr heb.symm]]
      rw [heb]
    · rw [List.filter_cons, if_neg (by
        simp only [beq_iff_eq]
        intro hcon
        exact heb ((List.indexOf_inj hn hb).mp hcon))]
      rw [show ((n, sq) :: rest).lookup b = rest.lookup b by
        simp [List.lookup,
          show (b == n) = false from
            beq_eq_false_iff_ne.mpr (fun h => heb h.symm)]]
      exact ih (fun e2 he2 => hcl e2 (List.mem_cons_of_mem _ he2)) hnd'.2

theorem lookup_eq_none_of_not_mem {β : Type} (a : String) :
    ∀ (l : List (String × β)), a ∉ l.map Prod.fst → l.lookup a = none := by
  intro l
  induction l with
  | nil => intro _; rfl
  | cons e rest ih =>
    intro h
    obtain ⟨n, v⟩ := e
    have hna : ¬ n = a := by
      intro hc
      exact h (by rw [List.map_cons, hc]; exact List.mem_cons_self _ _)
    rw [show ((n, v) :: rest).lookup a = rest.lookup a by
      simp [List.lookup,
        show (a == n) = false from
          beq_eq_false_iff_ne.mpr (fun hc => hna hc.symm)]]
    exact ih (fun hc => h (by rw [List.map_cons]; exact List.mem_cons_of_mem _ hc))

theorem foldl_updateCell_read (alerts : List String) (i : Nat)
    (v : (String × List ℚ) → ℚ) :
    ∀ (l : List (String × List ℚ)) (M : CorrMat) (ia ib : Nat),
      (l.foldl (fun M2 e2 => updateCell M2 i (alerts.indexOf e2.1) (v e2)) M)
          ia ib
        = if i = ia then
            ((M ia ib).1
                + ((l.filter (fun e2 => alerts.indexOf e2.1 == ib)).map v).sum,
             (M ia ib).2
                + (l.filter (fun e2 => alerts.indexOf e2.1 == ib)).length)
          else M ia ib := by
  intro l
  induction l with
  | nil =>
    intro M ia ib
    split_ifs <;> simp
  | cons e2 rest ih =>
    intro M ia ib
    rw [List.foldl_cons, ih]
    by_cases hia : i = ia
    · rw [if_pos hia, if_pos hia]
      by_cases hib : alerts.indexOf e2.1 = ib
      · rw [List.filter_cons, if_pos (beq_iff_eq.mpr hib)]
        have hcell : (updateCell M i (alerts.indexOf e2.1) (v e2)) ia ib
            = ((M ia ib).1 + v e2, (M ia ib).2 + 1) := by
          unfold updateCell
          rw [if_pos ⟨hia.symm, hib.symm⟩, hia, hib]
        rw [hcell]
        simp only [List.map_cons, List.sum_cons, List.length_cons]
        refine congrArg₂ Prod.mk (by ring) (by omega)
      · rw [List.filter_cons, if_neg (by
          simp only [beq_iff_eq]
          exact hib)]
        have hcell : (updateCell M i (alerts.indexOf e2.1) (v e2)) ia ib
            = M ia ib := by
          unfold updateCell
          rw [if_neg (by
            intro hc
            exact hib hc.2.symm)]
        rw [hcell]
    · rw [if_neg hia, if_neg hia]
      have hcell : (updateCell M i (alerts.indexOf e2.1) (v e2)) ia ib
          = M ia ib := by
        unfold updateCell
        rw [if_neg (by
          intro hc
          exact hia hc.1.symm)]
      rw [hcell]

theorem calcCorrPerClusterAux_read (corr : List ℚ → List ℚ → Option ℚ)
    (alerts : List String) (a b : String) (ha : a ∈ alerts) (hb : b ∈ alerts)
    (cl : List (String × List ℚ)) (hclm : ∀ e ∈ cl, e.1 ∈ alerts)
    (hclnd : (cl.map Prod.fst).Nodup) :
    ∀ (l1 : List (String × List ℚ)) (M : CorrMat),
      (∀ e ∈ l1, e.1 ∈ alerts) → (l1.map Prod.fst).Nodup →
      (l1.foldl
          (fun M1 e1 =>
            cl.foldl
              (fun M2 e2 =>
                updateCell M2 (alerts.indexOf e1.1) (alerts.indexOf e2.1)
                  (nanToZero (corr e1.2 e2.2)))
              M1)
          M) (alerts.indexOf a) (alerts.indexOf b)
        = (match l1.lookup a, cl.lookup b with
           | some sa, some sb =>
             ((M (alerts.indexOf a) (alerts.indexOf b)).1
                 + nanToZero (corr sa sb),
              (M (alerts.indexOf a) (alerts.indexOf b)).2 + 1)
           | _, _ => M (alerts.indexOf a) (alerts.indexOf b)) := by
  intro l1
  induction l1 with
  | nil =>
    intro M _ _
    rfl
  | cons e1 rest ih =>
    intro M hm hnd
    obtain ⟨n, sq⟩ := e1
    have hn : n ∈ alerts := by
      have := hm (n, sq) (List.mem_cons_self _ _)
      simpa using this
    have hnd' : (n ∉ rest.map Prod.fst) ∧ (rest.map Prod.fst).Nodup := by
      rw [List.map_cons, List.nodup_cons] at hnd
      exact hnd
    rw [List.foldl_cons]
    rw [ih _ (fun e he => hm e (List.mem_cons_of_mem _ he)) hnd'.2]
    by_cases hna : n = a
    · have hrest_none : rest.lookup a = none := by
        apply lookup_eq_none_of_not_mem
        rw [← hna]
        exact hnd'.1
      have hhead : ((n, sq) :: rest).lookup a = some sq := by
        simp [List.lookup, beq_iff_eq.mpr hna.symm]
      rw [hrest_none, hhead]
      have hread := foldl_updateCell_read alerts (alerts.indexOf n)
        (fun e2 => nanToZero (corr sq e2.2)) cl M
        (alerts.indexOf a) (alerts.indexOf b)
      rw [hread, if_pos (by rw [hna])]
      rw [filter_idx_eq_lookup alerts b hb cl hclm hclnd]
      cases hlb : cl.lookup b with
      | none => simp
      | some sb => simp
    · have hhead : ((n, sq) :: rest).lookup a = rest.lookup a := by
        simp [List.lookup,
          show (a == n) = false from
            beq_eq_false_iff_ne.mpr (fun hc => hna hc.symm)]
      rw [hhead]
      have hread := foldl_updateCell_read alerts (alerts.indexOf n)
        (fun e2 => nanToZero (corr sq e2.2)) cl M
        (alerts.indexOf a) (alerts.indexOf b)
      rw [hread, if_neg (by
        intro hc
        exact hna ((List.indexOf_inj hn ha).mp hc))]

theorem calcCorrPerCluster_read (corr : List ℚ → List ℚ → Option ℚ)
    (alerts : List String) (a b : String) (ha : a ∈ alerts) (hb : b ∈ alerts)
    (cl : List (String × List ℚ)) (hclm : ∀ e ∈ cl, e.1 ∈ alerts)
    (hclnd : (cl.map Prod.fst).Nodup) (M : CorrMat) :
    (calcCorrPerCluster corr alerts M cl)
        (alerts.indexOf a) (alerts.indexOf b)
      = (match cl.lookup a, cl.lookup b with
         | some sa, some sb =>
           ((M (alerts.indexOf a) (alerts.indexOf b)).1
               + nanToZero (corr sa sb),
            (M (alerts.indexOf a) (alerts.indexOf b)).2 + 1)
         | _, _ => M (alerts.indexOf a) (alerts.indexOf b)) :=
  calcCorrPerClusterAux_read corr alerts a b ha hb cl hclm hclnd cl M
    hclm hclnd

theorem accumulateClusters_read (corr : List ℚ → List ℚ → Option ℚ)
    (alerts : List String) (a b : String) (ha : a ∈ alerts) (hb : b ∈ alerts) :
    ∀ (clusters : List (List (String × List ℚ))) (M : CorrMat),
      (∀ cl ∈ clusters, (∀ e ∈ cl, e.1 ∈ alerts)
          ∧ (cl.map Prod.fst).Nodup) →
      (clusters.foldl (calcCorrPerCluster corr alerts) M)
          (alerts.indexOf a) (alerts.indexOf b)
        = ((M (alerts.indexOf a) (alerts.indexOf b)).1
              + (pairContribs corr a b clusters).sum,
           (M (alerts.indexOf a) (alerts.indexOf b)).2
              + (pairContribs corr a b clusters).length) := by
  intro clusters
  induction clusters with
  | nil =>
    intro M _
    simp [pairContribs]
  | cons cl cls ih =>
    intro M hcl
    obtain ⟨hclm, hclnd⟩ := hcl cl (List.mem_cons_self _ _)
    rw [List.foldl_cons]
    rw [ih _ (fun c hc => hcl c (List.mem_cons_of_mem _ hc))]
    rw [calcCorrPerCluster_read corr alerts a b ha hb cl hclm hclnd M]
    unfold pairContribs
    rw [List.filterMap_cons]
    cases hla : cl.lookup a with
    | none =>
      cases hlb : cl.lookup b with
      | none => rfl
      | some sb => rfl
    | some sa =>
      cases hlb : cl.lookup b with
      | none => rfl
      | some sb =>
        simp only [List.sum_cons, List.length_cons]
        refine congrArg₂ Prod.mk (by ring) (by omega)

/-- C8: in the final correlation matrix, every unordered pair of distinct
alertnames that appears together in exactly `K` clusters with per-cluster
coefficients `r₁ … rₖ` (each already `0` when the underlying Pearson
computation produced NaN) receives the value `(Σ rᵢ)/K`, and every cell
whose contribution count is `0` collapses to `0`. -/
theorem C8_correlation_matrix_averaging (corr : List ℚ → List ℚ → Option ℚ)
    (alerts : List String) (clusters : List (List (String × List ℚ)))
    (hcl : ∀ cl ∈ clusters, (∀ e ∈ cl, e.1 ∈ alerts)
        ∧ (cl.map Prod.fst).Nodup)
    (a b : String) (ha : a ∈ alerts) (hb : b ∈ alerts) (hab : a ≠ b) :
    calcMatrixResults (accumulateClusters corr alerts clusters)
        (alerts.indexOf a) (alerts.indexOf b)
      = if pairContribs corr a b clusters = [] then 0
        else (pairContribs corr a b clusters).sum
              / ((pairContribs corr a b clusters).length : ℚ) := by
  unfold calcMatrixResults accumulateClusters
  rw [accumulateClusters_read corr alerts a b ha hb clusters initMatrix hcl]
  simp only [initMatrix, zero_add]
  by_cases h : pairContribs corr a b clusters = []
  · rw [if_pos (by rw [h]; rfl), if_pos h]
  · rw [if_neg (by
      intro hc
      exact h (List.length_eq_zero.mp hc)), if_neg h]

/-- Witness for C8: a single cluster containing both alertnames, with a
coefficient function that returns `1`; the pair's cell averages to `1/1`. -/
theorem C8_correlation_matrix_averaging_witness :
    ((("a" : String) ∈ ["a", "b"]) ∧ (("b" : String) ∈ ["a", "b"])
      ∧ ("a" : String) ≠ "b")
    ∧ calcMatrixResults
        (accumulateClusters (fun _ _ => some 1) ["a", "b"]
          [[("a", ([1, 0] : List ℚ)), ("b", ([0, 1] : List ℚ))]])
        (List.indexOf "a" ["a", "b"]) (List.indexOf "b" ["a", "b"])
      = if pairContribs (fun _ _ => some 1) "a" "b"
            [[("a", ([1, 0] : List ℚ)), ("b", ([0, 1] : List ℚ))]] = []
        then 0
        else (pairContribs (fun _ _ => some 1) "a" "b"
              [[("a", ([1, 0] : List ℚ)), ("b", ([0, 1] : List ℚ))]]).sum
            / ((pairContribs (fun _ _ => some 1) "a" "b"
              [[("a", ([1, 0] : List ℚ)), ("b", ([0, 1] : List ℚ))]]).length : ℚ) :=
  ⟨⟨by decide, by decide, by decide⟩,
    C8_correlation_matrix_averaging (fun _ _ => some 1) ["a", "b"]
      [[("a", [1, 0]), ("b", [0, 1])]]
      (by
        intro cl hcl
        simp only [List.mem_singleton] at hcl
        subst hcl
        exact ⟨by decide, by decide⟩)
      "a" "b" (by decide) (by decide) (by decide)⟩

/-! ### C9: duration analyzer (`duration_analyzer.__calc_mean_duration_per_alertname`)

A final series is a metric label map together with `(start, duration)` value
pairs.  The Python loop indexes `result["metric"]["alertname"]` directly, so a
series whose metric lacks the `alertname` label raises `KeyError`; we model the
run as an `Option`, `none` standing for the raised exception.  The second loop
divides by `len(durations)`, raising `ZeroDivisionError` on an empty group,
also modelled by `none`. -/

structure FinalSeries where
  metric : List (String × String)
  values : List (Int × Int)
deriving DecidableEq, Repr

def appendDuration (name : String) (alerts : List (String × List Int))
    (vp : Int × Int) : List (String × List Int) :=
  alerts.map (fun p => if p.1 = name then (p.1, p.2 ++ [vp.2]) else p)

def processSeries (alerts : List (String × List Int)) (r : FinalSeries) :
    Option (List (String × List Int)) :=
  match r.metric.lookup "alertname" with
  | none => none
  | some name =>
      if (alerts.lookup name).isNone then
        some (r.values.foldl (appendDuration name) (alerts ++ [(name, [])]))
      else
        some (r.values.foldl (appendDuration name) alerts)

def collectDurations (results : List FinalSeries) :
    Option (List (String × List Int)) :=
  results.foldl (fun acc r => acc.bind (fun a => processSeries a r)) (some [])

def calc_mean_duration_per_alertname (results : List FinalSeries) :
    Option (List (String × ℚ)) :=
  (collectDurations results).bind (fun alerts =>
    if alerts.any (fun p => p.2.isEmpty) then none
    else some (alerts.map (fun p =>
      (p.1, ((p.2.sum : ℚ) / (p.2.length : ℚ))))))

/-- Spec-side reading: the duration components of all ranges over every series
carrying the given alertname label, in input order. -/
def specDurations (name : String) (results : List FinalSeries) : List Int :=
  match results with
  | [] => []
  | r :: rs =>
      if r.metric.lookup "alertname" == some name
      then r.values.map Prod.snd ++ specDurations name rs
      else specDurations name rs

def hasAlertname (name : String) (results : List FinalSeries) : Bool :=
  results.any (fun r => r.metric.lookup "alertname" == some name)

theorem foldl_appendDuration_entries (name : String) (vals : List (Int × Int)) :
    ∀ (alerts : List (String × List Int)),
      vals.foldl (appendDuration name) alerts
        = alerts.map (fun p =>
            if p.1 = name then (p.1, p.2 ++ vals.map Prod.snd) else p) := by
  induction vals with
  | nil =>
    intro alerts
    rw [List.foldl_nil]
    have h : ∀ p ∈ alerts,
        (if p.1 = name
          then (p.1, p.2 ++ ([] : List (Int × Int)).map Prod.snd) else p)
          = id p := by
      intro p _
      by_cases hp : p.1 = name
      · rw [if_pos hp, List.map_nil, List.append_nil]
        rfl
      · rw [if_neg hp]
        rfl
    rw [List.map_congr_left h, List.map_id]
  | cons vp vps ih =>
    intro alerts
    rw [List.foldl_cons, ih (appendDuration name alerts vp)]
    unfold appendDuration
    rw [List.map_map]
    refine List.map_congr_left ?_
    intro p _
    by_cases hp : p.1 = name
    · simp [Function.comp, hp, List.append_assoc]
    · simp [Function.comp, hp]

theorem lookup_map_update (name : String) (vals : List Int) :
    ∀ (alerts : List (String × List Int)) (key : String),
      (alerts.map (fun p => if p.1 = name then (p.1, p.2 ++ vals) else p)).lookup key
        = if key = name then (alerts.lookup key).map (fun ds => ds ++ vals)
          else alerts.lookup key := by
  intro alerts
  induction alerts with
  | nil =>
    intro key
    by_cases h : key = name <;> simp [h]
  | cons q rest ih =>
    intro key
    obtain ⟨qk, qv⟩ := q
    rw [List.map_cons]
    by_cases hqk : qk = name
    · rw [if_pos hqk]
      by_cases hk : key = qk
      · subst hk
        rw [if_pos hqk]
        simp [List.lookup_cons_self]
      · rw [List.lookup_cons, List.lookup_cons,
          show (key == qk) = false from beq_eq_false_iff_ne.mpr hk]
        exact ih key
    · rw [if_neg hqk]
      by_cases hk : key = qk
      · subst hk
        rw [if_neg hqk]
        simp [List.lookup_cons_self]
      · rw [List.lookup_cons, List.lookup_cons,
          show (key == qk) = false from beq_eq_false_iff_ne.mpr hk]
        exact ih key

theorem mem_map_update (name : String) (vals : List Int)
    (alerts : List (String × List Int)) (p : String × List Int)
    (hp : p ∈ alerts.map (fun q => if q.1 = name then (q.1, q.2 ++ vals) else q)) :
    ∃ q ∈ alerts, (q.1 = name ∧ p.2 = q.2 ++ vals) ∨ (q.1 ≠ name ∧ p.2 = q.2) := by
  rw [List.mem_map] at hp
  obtain ⟨q, hq, hpq⟩ := hp
  refine ⟨q, hq, ?_⟩
  by_cases h : q.1 = name
  · rw [if_pos h] at hpq
    exact Or.inl ⟨h, by rw [← hpq]⟩
  · rw [if_neg h] at hpq
    exact Or.inr ⟨h, by rw [← hpq]⟩

theorem processSeries_spec (alerts : List (String × List Int)) (r : FinalSeries)
    (rname : String) (hm : r.metric.lookup "alertname" = some rname) :
    ∃ A, processSeries alerts r = some A
      ∧ (∀ key, A.lookup key =
          if key = rname
          then some ((alerts.lookup key).getD [] ++ r.values.map Prod.snd)
          else alerts.lookup key)
      ∧ ((∀ p ∈ alerts, p.2 ≠ []) → r.values ≠ [] → ∀ p ∈ A, p.2 ≠ []) := by
  have hform : processSeries alerts r
      = if (alerts.lookup rname).isNone then
          some (r.values.foldl (appendDuration rname) (alerts ++ [(rname, [])]))
        else some (r.values.foldl (appendDuration rname) alerts) := by
    unfold processSeries
    rw [hm]
  rw [hform]
  by_cases hl : (alerts.lookup rname).isNone
  · rw [if_pos hl]
    refine ⟨_, rfl, ?_, ?_⟩
    · intro key
      rw [foldl_appendDuration_entries, lookup_map_update]
      by_cases hk : key = rname
      · rw [if_pos hk, if_pos hk]
        rw [List.lookup_append]
        have hnone : alerts.lookup key = none := by
          rw [hk]; exact Option.isNone_iff_eq_none.mp hl
        rw [hnone, Option.none_or, List.lookup_cons,
          show (key == rname) = true from beq_iff_eq.mpr hk]
        simp
      · rw [if_neg hk, if_neg hk]
        rw [List.lookup_append, List.lookup_cons,
          show (key == rname) = false from beq_eq_false_iff_ne.mpr hk]
        rw [List.lookup_nil, Option.or_none]
    · intro hne hv p hp
      rw [foldl_appendDuration_entries] at hp
      obtain ⟨q, hq, hcase⟩ := mem_map_update _ _ _ _ hp
      have hvals : r.values.map Prod.snd ≠ [] := by
        cases hvv : r.values with
        | nil => exact absurd hvv hv
        | cons a l => simp
      rcases List.mem_append.mp hq with hq1 | hq1
      · rcases hcase with ⟨_, h2⟩ | ⟨_, h2⟩
        · rw [h2]
          intro hcon
          exact hne q hq1 (List.append_eq_nil.mp hcon).1
        · rw [h2]; exact hne q hq1
      · rw [List.mem_singleton] at hq1
        subst hq1
        rcases hcase with ⟨_, h2⟩ | ⟨hfalse, _⟩
        · rw [h2]
          simpa using hvals
        · exact absurd rfl hfalse
  · rw [if_neg hl]
    refine ⟨_, rfl, ?_, ?_⟩
    · intro key
      rw [foldl_appendDuration_entries, lookup_map_update]
      by_cases hk : key = rname
      · rw [if_pos hk, if_pos hk]
        cases hds : alerts.lookup rname with
        | none => exact absurd (by rw [hds]; rfl) hl
        | some ds =>
          rw [hk, hds]
          rfl
      · rw [if_neg hk, if_neg hk]
    · intro hne hv p hp
      rw [foldl_appendDuration_entries] at hp
      obtain ⟨q, hq, hcase⟩ := mem_map_update _ _ _ _ hp
      rcases hcase with ⟨_, h2⟩ | ⟨_, h2⟩
      · rw [h2]
        intro hcon
        exact hne q hq (List.append_eq_nil.mp hcon).1
      · rw [h2]; exact hne q hq

theorem collectDurations_invariant :
    ∀ (results : List FinalSeries) (alerts : List (String × List Int)),
      (∀ r ∈ results, (r.metric.lookup "alertname").isSome ∧ r.values ≠ []) →
      (∀ p ∈ alerts, p.2 ≠ []) →
      ∃ A, results.foldl (fun acc r => acc.bind (fun a => processSeries a r))
              (some alerts) = some A
        ∧ (∀ p ∈ A, p.2 ≠ [])
        ∧ ∀ key, A.lookup key =
            match alerts.lookup key with
            | some ds => some (ds ++ specDurations key results)
            | none =>
                if hasAlertname key results
                then some (specDurations key results) else none := by
  intro results
  induction results with
  | nil =>
    intro alerts _ hne
    refine ⟨alerts, rfl, hne, ?_⟩
    intro key
    cases h : alerts.lookup key with
    | none => simp [hasAlertname]
    | some ds => simp [specDurations]
  | cons r rs ih =>
    intro alerts h hne
    obtain ⟨hiso, hval⟩ := h r (List.mem_cons_self _ _)
    obtain ⟨rname, hrname⟩ := Option.isSome_iff_exists.mp hiso
    obtain ⟨A₁, hA₁, hA₁look, hA₁ne⟩ := processSeries_spec alerts r rname hrname
    rw [List.foldl_cons]
    have hstep : ((some alerts).bind fun a => processSeries a r)
        = processSeries alerts r := rfl
    rw [hstep, hA₁]
    obtain ⟨A, hA, hAne, hAlook⟩ :=
      ih A₁ (fun x hx => h x (List.mem_cons_of_mem _ hx)) (hA₁ne hne hval)
    refine ⟨A, hA, hAne, ?_⟩
    intro key
    rw [hAlook key, hA₁look key]
    by_cases hk : key = rname
    · rw [if_pos hk]
      have hmatch : (r.metric.lookup "alertname" == some key) = true := by
        rw [hrname, hk]; exact beq_iff_eq.mpr rfl
      cases hal : alerts.lookup key with
      | some ds => simp [specDurations, hmatch, List.append_assoc]
      | none => simp [specDurations, hasAlertname, hmatch, List.append_assoc]
    · rw [if_neg hk]
      have hmatch : (r.metric.lookup "alertname" == some key) = false := by
        rw [hrname]
        exact beq_eq_false_iff_ne.mpr
          (fun hcon => hk (Option.some.inj hcon).symm)
      cases hal : alerts.lookup key with
      | some ds => simp [specDurations, hmatch]
      | none => simp [specDurations, hasAlertname, hmatch]

theorem lookup_map_vals (f : List Int → ℚ) :
    ∀ (alerts : List (String × List Int)) (key : String),
      (alerts.map (fun p => (p.1, f p.2))).lookup key = (alerts.lookup key).map f := by
  intro alerts
  induction alerts with
  | nil => intro key; simp
  | cons q rest ih =>
    intro key
    obtain ⟨qk, qv⟩ := q
    rw [List.map_cons, List.lookup_cons, List.lookup_cons]
    cases hqk : (key == qk)
    · exact ih key
    · rfl

/-- C9 (amended): when every final series carries the alertname label and has
at least one value pair, the duration analyzer maps each alertname to the
arithmetic mean of the duration components of all ranges over every series
carrying that label, and the concrete example `[(100,30),(500,10)] → 20`
holds; a series lacking the label, however, is not skipped but raises
`KeyError` (see the counterexample). -/
theorem C9_duration_means (results : List FinalSeries)
    (hname : ∀ r ∈ results, (r.metric.lookup "alertname").isSome)
    (hvals : ∀ r ∈ results, r.values ≠ []) :
    (∃ m, calc_mean_duration_per_alertname results = some m ∧
        ∀ key, m.lookup key =
          if hasAlertname key results
          then some (((specDurations key results).sum : ℚ)
                      / ((specDurations key results).length : ℚ))
          else none)
    ∧ calc_mean_duration_per_alertname
        [⟨[("alertname", "X")], [(100, 30), (500, 10)]⟩]
      = some [("X", 20)] := by
  constructor
  · obtain ⟨A, hA, hAne, hAlook⟩ :=
      collectDurations_invariant results []
        (fun r hr => ⟨hname r hr, hvals r hr⟩) (by intro p hp; cases hp)
    have hcd : collectDurations results = some A := hA
    have hguard : A.any (fun p => p.2.isEmpty) = false := by
      rw [List.any_eq_false]
      intro p hp hcon
      exact hAne p hp (List.isEmpty_iff.mp hcon)
    refine ⟨A.map (fun p => (p.1, ((p.2.sum : ℚ) / (p.2.length : ℚ)))), ?_, ?_⟩
    · have hform : calc_mean_duration_per_alertname results
          = if A.any (fun p => p.2.isEmpty) then none
            else some (A.map (fun p =>
              (p.1, ((p.2.sum : ℚ) / (p.2.length : ℚ))))) := by
        unfold calc_mean_duration_per_alertname
        rw [hcd]
        rfl
      rw [hform, hguard]
      simp
    · intro key
      rw [lookup_map_vals (fun ds => ((ds.sum : ℚ) / (ds.length : ℚ))) A key,
        hAlook key]
      show (if hasAlertname key results
            then some (specDurations key results) else none).map
          (fun ds => ((ds.sum : ℚ) / (ds.length : ℚ)))
          = _
      cases hhas : hasAlertname key results
      · simp [hhas]
      · simp [hhas]
  · have hcd : collectDurations [⟨[("alertname", "X")], [(100, 30), (500, 10)]⟩]
        = some [("X", [30, 10])] := rfl
    have hmean : calc_mean_duration_per_alertname
        [⟨[("alertname", "X")], [(100, 30), (500, 10)]⟩]
        = some [("X", (([30, 10] : List Int).sum : ℚ)
                        / (([30, 10] : List Int).length : ℚ))] := by
      unfold calc_mean_duration_per_alertname
      rw [hcd]
      rfl
    rw [hmean]
    norm_num

/-- Witness for C9 at the spec's own example input. -/
theorem C9_duration_means_witness :
    ((∀ r ∈ ([⟨[("alertname", "X")], [(100, 30), (500, 10)]⟩] : List FinalSeries),
        (r.metric.lookup "alertname").isSome)
      ∧ (∀ r ∈ ([⟨[("alertname", "X")], [(100, 30), (500, 10)]⟩] : List FinalSeries),
        r.values ≠ []))
    ∧ ((∃ m, calc_mean_duration_per_alertname
            [⟨[("alertname", "X")], [(100, 30), (500, 10)]⟩] = some m ∧
          ∀ key, m.lookup key =
            if hasAlertname key [⟨[("alertname", "X")], [(100, 30), (500, 10)]⟩]
            then some
              (((specDurations key
                  [⟨[("alertname", "X")], [(100, 30), (500, 10)]⟩]).sum : ℚ)
                / ((specDurations key
                  [⟨[("alertname", "X")], [(100, 30), (500, 10)]⟩]).length : ℚ))
            else none)
        ∧ calc_mean_duration_per_alertname
            [⟨[("alertname", "X")], [(100, 30), (500, 10)]⟩]
          = some [("X", 20)]) :=
  ⟨⟨by decide, by decide⟩,
    C9_duration_means _ (by decide) (by decide)⟩

/-- C9 counterexample: a series whose metric lacks the `alertname` label is
not skipped — the lookup raises `KeyError` (modelled as `none`), even though
the claim predicts the remaining series still yield `[("X", 20)]`. -/
theorem C9_counterexample :
    calc_mean_duration_per_alertname
        [⟨[("alertname", "X")], [(100, 30), (500, 10)]⟩,
         ⟨[("other", "Y")], [(0, 7)]⟩]
      = none
    ∧ (none : Option (List (String × ℚ))) ≠ some [("X", 20)] := by
  refine ⟨rfl, ?_⟩
  simp

/-! ### C10: `collect_alert_samples` empties the caller's range lists

`CorrelationAnalyzer.__sort_data` is a selection sort that pops the leftmost
minimum (by range start) off the caller-supplied list until `max_length`
elements have been moved, so the input list ends up empty and the sorted copy
lives on only inside the analyzer's data matrix.  We model a cluster
dictionary as an association list `cluster ↦ (alert ↦ ranges)` and return the
post-call state of `data` alongside the data matrix. -/

def findMinGo : Int → Nat → Nat → List (Int × Int) → Nat
  | _, curIdx, _, [] => curIdx
  | cur, curIdx, i, v :: rest =>
      if v.1 < cur then findMinGo v.1 i (i + 1) rest
      else findMinGo cur curIdx (i + 1) rest

def sortDataGo : Nat → List (Int × Int) → List (Int × Int) × List (Int × Int)
  | 0, data => ([], data)
  | _ + 1, [] => ([], [])
  | fuel + 1, v :: rest =>
      (((v :: rest).getD (findMinGo v.1 0 1 rest) v)
          :: (sortDataGo fuel ((v :: rest).eraseIdx (findMinGo v.1 0 1 rest))).1,
        (sortDataGo fuel ((v :: rest).eraseIdx (findMinGo v.1 0 1 rest))).2)

def sortData (data : List (Int × Int)) : List (Int × Int) × List (Int × Int) :=
  sortDataGo data.length data

def collect_alert_samples (gap start endB : Int)
    (data : List (String × List (String × List (Int × Int)))) :
    List (String × List (String × List (Int × Int)))
      × List (String × List (String × List Int)) :=
  (data.map (fun cl => (cl.1, cl.2.map (fun al => (al.1, (sortData al.2).2)))),
   data.map (fun cl => (cl.1, cl.2.map (fun al =>
     (al.1, create_time_samples_per_time gap (sortData al.2).1 start endB)))))

theorem findMinGo_lt :
    ∀ (rest : List (Int × Int)) (cur : Int) (curIdx i : Nat),
      curIdx < i → findMinGo cur curIdx i rest < i + rest.length := by
  intro rest
  induction rest with
  | nil =>
    intro cur curIdx i h
    simpa [findMinGo] using h
  | cons v vs ih =>
    intro cur curIdx i h
    rw [findMinGo]
    by_cases hv : v.1 < cur
    · rw [if_pos hv]
      have := ih v.1 i (i + 1) (Nat.lt_succ_self i)
      calc findMinGo v.1 i (i + 1) vs < (i + 1) + vs.length := this
        _ = i + (v :: vs).length := by simp [List.length_cons]; omega
    · rw [if_neg hv]
      have := ih cur curIdx (i + 1) (Nat.lt_succ_of_lt h)
      calc findMinGo cur curIdx (i + 1) vs < (i + 1) + vs.length := this
        _ = i + (v :: vs).length := by simp [List.length_cons]; omega

theorem length_eraseIdx_lt {α : Type} :
    ∀ (l : List α) (i : Nat), i < l.length → (l.eraseIdx i).length + 1 = l.length := by
  intro l
  induction l with
  | nil => intro i h; cases h
  | cons x rest ih =>
    intro i h
    cases i with
    | zero => rfl
    | succ j =>
      show (x :: rest.eraseIdx j).length + 1 = rest.length + 1
      rw [List.length_cons, ih j (Nat.lt_of_succ_lt_succ h)]

theorem perm_getD_cons_eraseIdx {α : Type} [Inhabited α] :
    ∀ (l : List α) (i : Nat) (d : α), i < l.length →
      (l.getD i d :: l.eraseIdx i).Perm l := by
  intro l
  induction l with
  | nil => intro i d h; cases h
  | cons x rest ih =>
    intro i d h
    cases i with
    | zero => exact List.Perm.refl _
    | succ j =>
      show (rest.getD j d :: x :: rest.eraseIdx j).Perm (x :: rest)
      exact (List.Perm.swap x (rest.getD j d) (rest.eraseIdx j)).trans
        (List.Perm.cons x (ih j d (Nat.lt_of_succ_lt_succ h)))

theorem sortDataGo_spec :
    ∀ (fuel : Nat) (data : List (Int × Int)), data.length ≤ fuel →
      (sortDataGo fuel data).2 = [] ∧ (sortDataGo fuel data).1.Perm data := by
  intro fuel
  induction fuel with
  | zero =>
    intro data h
    have hnil : data = [] := List.length_eq_zero.mp (Nat.le_zero.mp h)
    subst hnil
    exact ⟨rfl, List.Perm.refl _⟩
  | succ fuel ih =>
    intro data h
    cases data with
    | nil => exact ⟨rfl, List.Perm.refl _⟩
    | cons v rest =>
      have hidx : findMinGo v.1 0 1 rest < (v :: rest).length := by
        rw [List.length_cons]
        have := findMinGo_lt rest v.1 0 1 (Nat.lt_succ_self 0)
        omega
      have hlen : ((v :: rest).eraseIdx (findMinGo v.1 0 1 rest)).length ≤ fuel := by
        have := length_eraseIdx_lt (v :: rest) (findMinGo v.1 0 1 rest) hidx
        rw [List.length_cons] at this
        rw [List.length_cons] at h
        omega
      obtain ⟨ih2, ih1⟩ := ih _ hlen
      constructor
      · show (sortDataGo fuel ((v :: rest).eraseIdx (findMinGo v.1 0 1 rest))).2 = []
        exact ih2
      · show ((v :: rest).getD (findMinGo v.1 0 1 rest) v
            :: (sortDataGo fuel ((v :: rest).eraseIdx (findMinGo v.1 0 1 rest))).1).Perm
            (v :: rest)
        exact (List.Perm.cons _ ih1).trans
          (perm_getD_cons_eraseIdx (v :: rest) (findMinGo v.1 0 1 rest) v hidx)

/-- C10: `collect_alert_samples` mutates its input — after the call every
alert's range list inside the caller's `data` dictionary is empty (the
selection sort pops every element), while a permutation of the original
ranges survives, sorted, only in the analyzer's internal data matrix, whose
entries are the binary samples of the sorted ranges. -/
theorem C10_collect_mutates_input (gap start endB : Int)
    (data : List (String × List (String × List (Int × Int)))) :
    (∀ cl ∈ (collect_alert_samples gap start endB data).1,
      ∀ al ∈ cl.2, al.2 = ([] : List (Int × Int)))
    ∧ (∀ cl ∈ data, ∀ al ∈ cl.2, ((sortData al.2).1).Perm al.2)
    ∧ (collect_alert_samples gap start endB data).2
        = data.map (fun cl => (cl.1, cl.2.map (fun al =>
            (al.1, create_time_samples_per_time gap (sortData al.2).1 start endB)))) := by
  refine ⟨?_, ?_, rfl⟩
  · intro cl hcl al hal
    unfold collect_alert_samples at hcl
    rw [List.mem_map] at hcl
    obtain ⟨cl₀, hcl₀, hcleq⟩ := hcl
    rw [← hcleq] at hal
    dsimp only at hal
    rw [List.mem_map] at hal
    obtain ⟨al₀, hal₀, haleq⟩ := hal
    rw [← haleq]
    exact (sortDataGo_spec al₀.2.length al₀.2 (Nat.le_refl _)).1
  · intro cl hcl al hal
    exact (sortDataGo_spec al.2.length al.2 (Nat.le_refl _)).2

/-- Witness for C10 on a concrete one-cluster dictionary. -/
theorem C10_collect_mutates_input_witness :
    (∀ cl ∈ (collect_alert_samples 60 0 300
        [("c1", [("a", [(120, 60), (0, 0)])])]).1,
      ∀ al ∈ cl.2, al.2 = ([] : List (Int × Int)))
    ∧ (∀ cl ∈ [("c1", [("a", [((120 : Int), (60 : Int)), (0, 0)])])],
        ∀ al ∈ cl.2, ((sortData al.2).1).Perm al.2)
    ∧ (collect_alert_samples 60 0 300 [("c1", [("a", [(120, 60), (0, 0)])])]).2
        = [("c1", [("a", [(120, 60), (0, 0)])])].map (fun cl => (cl.1,
            cl.2.map (fun al =>
              (al.1, create_time_samples_per_time 60 (sortData al.2).1 0 300)))) :=
  C10_collect_mutates_input 60 0 300 [("c1", [("a", [(120, 60), (0, 0)])])]

end Alertmagnet
